import Mathlib

/-!
# Verification of the auto-commit-splitter core

Shallow embedding of the core algorithms of `src/extension.ts`:
the porcelain-v2 status parser, the unified-diff parser, the binary-operation
extractor, the snapshot reconciler, the plan validator, the JSON object
extractor, the commit-header check and the plan applier.

Strings are modelled as `List Char` (named `Str` below); the JavaScript
string operations used by the source (`split`, `join`, `slice`, `trim`,
`startsWith`) are given explicit executable definitions with the same
semantics.  The git subprocess boundary is modelled as an abstract oracle
(state plus issued command to optional output plus new state) and the two
read-only git outputs consumed by the snapshot step (status text, diff text)
are passed as inputs to the pure core.
-/

set_option maxHeartbeats 1000000

abbrev Str := List Char

/-- JavaScript whitespace class (`\s`, also the set trimmed by `trim`):
space, tab, line feed, vertical tab, form feed, carriage return, NBSP,
Unicode space separators, line/paragraph separators, BOM. -/
def isJsWs (c : Char) : Bool :=
  c = ' ' || c = '\t' || c = '\n' || c = Char.ofNat 11 || c = Char.ofNat 12 ||
  c = '\r' || c = Char.ofNat 0xa0 || c = Char.ofNat 0x1680 ||
  (0x2000 ≤ c.toNat && c.toNat ≤ 0x200a) || c = Char.ofNat 0x2028 ||
  c = Char.ofNat 0x2029 || c = Char.ofNat 0x202f || c = Char.ofNat 0x205f ||
  c = Char.ofNat 0x3000 || c = Char.ofNat 0xfeff

/-- JavaScript line terminators (the characters not matched by `.` in a
regular expression without the `s` flag). -/
def isLineTerm (c : Char) : Bool :=
  c = '\n' || c = '\r' || c = Char.ofNat 0x2028 || c = Char.ofNat 0x2029

/-- The character class matched by `.` in a JavaScript regex (no `s` flag). -/
def jsDot (c : Char) : Bool := !(isLineTerm c)

/-- JavaScript `String.prototype.trim`: strip leading and trailing
whitespace/line terminators. -/
def jsTrim (cs : Str) : Str :=
  ((cs.dropWhile isJsWs).reverse.dropWhile isJsWs).reverse

/-- JavaScript `s.split(sep)` for a single-character separator: `n`
separators produce `n + 1` fields, empty fields are kept. -/
def splitOnChar (sep : Char) : Str → List Str
  | [] => [[]]
  | c :: cs =>
    if c = sep then [] :: splitOnChar sep cs
    else
      match splitOnChar sep cs with
      | [] => [[c]]
      | t :: ts => (c :: t) :: ts

/-- JavaScript `parts.join(sep)` for a single-character separator. -/
def joinSep (sep : Char) : List Str → Str
  | [] => []
  | [x] => x
  | x :: xs => x ++ sep :: joinSep sep xs

/-- JavaScript `s.startsWith(p)`. -/
def startsWithStr (p l : Str) : Bool := p.isPrefixOf l

/-! ## Data model (`Hunk`, `FileOp`, `PlanCommit`, `Plan`) -/

inductive FileOpKind
  | add | delete | rename | copy | binary | typechange
deriving DecidableEq, Repr

def kindStr : FileOpKind → Str
  | .add => "add".data
  | .delete => "delete".data
  | .rename => "rename".data
  | .copy => "copy".data
  | .binary => "binary".data
  | .typechange => "typechange".data

structure FileOp where
  id : Str
  kind : FileOpKind
  path : Str
  origPath : Option Str
deriving DecidableEq, Repr

structure Hunk where
  id : Str
  file : Str
  fileHeader : List Str
  hunkLines : List Str
  patchText : Str
  stats : Nat × Nat
deriving DecidableEq, Repr

structure PlanCommit where
  message : Str
  body : Option Str
  hunks : List Str
  ops : List Str
deriving DecidableEq, Repr

structure Plan where
  commits : List PlanCommit
deriving DecidableEq, Repr

/-- Modelled from the spec: the id is a "deterministic identifier derived
from operation kind + source path + destination path".  The source derives
it as `"op" + sha1(base).hex.slice(0, 10)` where
`base = kind + "|" + (origPath ?? "") + "|" + path`; the SHA-1 digest is
external library code, modelled here by the identity on the pre-image
(deterministic, and injective where the truncated digest is merely
collision-resistant). -/
def hashId (base : Str) : Str := base

/-- `makeOp` of the source: build a `FileOp` with a content-derived id. -/
def makeOp (kind : FileOpKind) (path : Str) (origPath : Option Str) : FileOp :=
  let base := kindStr kind ++ '|' :: origPath.getD [] ++ '|' :: path
  { id := "op".data ++ hashId base, kind := kind, path := path, origPath := origPath }

/-! ## Status parser (`parsePorcelainV2Z`) -/

structure ParseAcc where
  ops : List FileOp
  unsplittablePaths : List Str
  hasUnmerged : Bool
deriving DecidableEq, Repr

/-- The token loop of `parsePorcelainV2Z`.  Each NUL-delimited token is
dispatched on its leading character; `2` records consume the following
token as the original path when that token is non-empty (truthy).  The
loop is translated with a fuel argument (one unit per loop iteration,
initial fuel = number of tokens, always sufficient since every iteration
consumes at least one token) so that the definition is structurally
recursive and evaluates by kernel reduction. -/
def parseTokensGo : Nat → List Str → ParseAcc
  | 0, _ => ⟨[], [], false⟩
  | _ + 1, [] => ⟨[], [], false⟩
  | fuel + 1, t :: rest =>
    if t = [] ∨ t.head? = some '#' then parseTokensGo fuel rest
    else if t.head? = some '?' then
      let p := t.drop 2
      let acc := parseTokensGo fuel rest
      ⟨makeOp .add p none :: acc.ops, p :: acc.unsplittablePaths, acc.hasUnmerged⟩
    else if t.head? = some 'u' then
      let acc := parseTokensGo fuel rest
      ⟨acc.ops, acc.unsplittablePaths, true⟩
    else if t.head? = some '1' then
      let parts := splitOnChar ' ' t
      if parts.length < 9 then parseTokensGo fuel rest
      else
        let xy := parts.getD 1 "..".data
        let x := (xy.get? 0).getD '.'
        let y := (xy.get? 1).getD '.'
        let path := joinSep ' ' (parts.drop 8)
        let acc := parseTokensGo fuel rest
        if x = 'D' ∨ y = 'D' then
          ⟨makeOp .delete path none :: acc.ops, path :: acc.unsplittablePaths, acc.hasUnmerged⟩
        else if x = 'T' ∨ y = 'T' then
          ⟨makeOp .typechange path none :: acc.ops, path :: acc.unsplittablePaths, acc.hasUnmerged⟩
        else acc
    else if t.head? = some '2' then
      let parts := splitOnChar ' ' t
      if parts.length < 10 then parseTokensGo fuel rest
      else
        let xScore := parts.getD 8 []
        let action := xScore.get? 0
        let path := joinSep ' ' (parts.drop 9)
        let k : FileOpKind :=
          if action = some 'R' then .rename
          else if action = some 'C' then .copy
          else .rename
        match rest with
        | [] =>
          let acc := parseTokensGo fuel []
          ⟨makeOp k path none :: acc.ops, path :: acc.unsplittablePaths, acc.hasUnmerged⟩
        | next :: rest' =>
          if next = [] then
            let acc := parseTokensGo fuel (next :: rest')
            ⟨makeOp k path (some next) :: acc.ops, path :: acc.unsplittablePaths, acc.hasUnmerged⟩
          else
            let acc := parseTokensGo fuel rest'
            ⟨makeOp k path (some next) :: acc.ops, path :: acc.unsplittablePaths, acc.hasUnmerged⟩
    else parseTokensGo fuel rest

/-- The token loop at its standard entry point (fuel = token count). -/
def parseTokens (toks : List Str) : ParseAcc := parseTokensGo toks.length toks

/-- `parsePorcelainV2Z`: split the raw status text on NUL, drop empty
tokens, run the token loop.  Total on every input string. -/
def parsePorcelainV2Z (raw : Str) : ParseAcc :=
  parseTokens ((splitOnChar (Char.ofNat 0) raw).filter (fun t => decide (t ≠ [])))

/-! ## Unified-diff parser (`parseUnifiedDiff`) -/

/-- JavaScript `s.split(/\r?\n/)`: split on `\n`, also consuming an
immediately preceding `\r`; a lone `\r` is ordinary content. -/
def splitLinesRN : Str → List Str
  | [] => [[]]
  | '\r' :: '\n' :: cs => [] :: splitLinesRN cs
  | '\n' :: cs => [] :: splitLinesRN cs
  | c :: cs =>
    match splitLinesRN cs with
    | [] => [[c]]
    | t :: ts => (c :: t) :: ts

/-- The scan performed by the regex `^diff --git a\/(.+?) b\/(.+)$` after
the literal prefix `diff --git a/` has been consumed: the lazy group grows
one (dot-matchable) character at a time until the remainder is
`" b/" ++ Y` with `Y` non-empty and dot-matchable to the end of the line;
the result is the second capture `Y`. -/
def guessScan : Str → Option Str
  | [] => none
  | c :: cs =>
    if jsDot c then
      if startsWithStr " b/".data cs ∧ cs.drop 3 ≠ [] ∧ (cs.drop 3).all jsDot then
        some (cs.drop 3)
      else guessScan cs
    else none

/-- `guessFileFromDiffHeader`: find the `diff --git ` line of the header
and extract the `b/`-side path via the regex above. -/
def guessFileFromDiffHeader (fileHeader : List Str) : Option Str :=
  match fileHeader.find? (fun l => startsWithStr "diff --git ".data l) with
  | none => none
  | some diffLine =>
    if startsWithStr "diff --git a/".data diffLine then guessScan (diffLine.drop 13)
    else none

/-- `calcStats`: count added/removed lines, ignoring the `+++ `/`--- `
marker lines. -/
def calcStats (hunkLines : List Str) : Nat × Nat :=
  hunkLines.foldl
    (fun (s : Nat × Nat) l =>
      if startsWithStr "+++ ".data l ∨ startsWithStr "--- ".data l then s
      else if startsWithStr "+".data l then (s.1 + 1, s.2)
      else if startsWithStr "-".data l then (s.1, s.2 + 1)
      else s)
    (0, 0)

/-- Build a `Hunk` record from the accumulated file header, current file
path and hunk lines (the body of `hunks.push({...})` in the source,
including the `currentFile || guessFileFromDiffHeader(..) || "UNKNOWN"`
fallback chain).  The SHA-1 id is modelled as in `makeOp`. -/
def finishHunk (fileHeader : List Str) (currentFile : Str) (hunkLines : List Str) : Hunk :=
  let g := (guessFileFromDiffHeader fileHeader).getD []
  let file := if currentFile ≠ [] then currentFile
              else if g ≠ [] then g else "UNKNOWN".data
  { id := "h".data ++ hashId (file ++ '\n' :: joinSep '\n' hunkLines)
    file := file
    fileHeader := fileHeader
    hunkLines := hunkLines
    patchText := joinSep '\n' (fileHeader ++ hunkLines)
    stats := calcStats hunkLines }

/-- Parser state for the single forward scan of `parseUnifiedDiff`:
either skipping leading junk, accumulating a file header (meta lines), or
accumulating the lines of one hunk. -/
inductive PudMode
  | top
  | fileMeta (fileHeader : List Str) (currentFile : Str)
  | inHunk (fileHeader : List Str) (currentFile : Str) (acc : List Str)

/-- The while-loops of `parseUnifiedDiff` as one structural recursion over
the line list; the mode records which accumulation loop is active.  A line
starting `diff --git ` or `@@ ` ends the active accumulation exactly as the
inner loop conditions of the source do. -/
def pudGo : PudMode → List Str → List Hunk
  | .top, [] => []
  | .fileMeta _ _, [] => []
  | .inHunk fh cf acc, [] => [finishHunk fh cf acc]
  | .top, l :: ls =>
    if startsWithStr "diff --git ".data l then pudGo (.fileMeta [l] []) ls
    else if startsWithStr "@@ ".data l then pudGo (.inHunk [] [] [l]) ls
    else pudGo .top ls
  | .fileMeta fh cf, l :: ls =>
    if startsWithStr "diff --git ".data l then pudGo (.fileMeta [l] []) ls
    else if startsWithStr "@@ ".data l then pudGo (.inHunk fh cf [l]) ls
    else
      pudGo (.fileMeta (fh ++ [l]) (if startsWithStr "+++ b/".data l then l.drop 6 else cf)) ls
  | .inHunk fh cf acc, l :: ls =>
    if startsWithStr "diff --git ".data l then finishHunk fh cf acc :: pudGo (.fileMeta [l] []) ls
    else if startsWithStr "@@ ".data l then finishHunk fh cf acc :: pudGo (.inHunk fh cf [l]) ls
    else pudGo (.inHunk fh cf (acc ++ [l])) ls

/-- `parseUnifiedDiff`: split the diff into lines and scan. -/
def parseUnifiedDiff (diff : Str) : List Hunk := pudGo .top (splitLinesRN diff)

/-! ## Binary-operation extractor (`extractBinaryOpsFromDiff`) -/

/-- JavaScript `suf.isSuffixOf`-based model of matching `X differ$`:
strip the literal suffix if present. -/
def stripSuffixStr (suf l : Str) : Option Str :=
  if suf.isSuffixOf l then some (l.take (l.length - suf.length)) else none

/-- The unanchored regex `/ and b\/(.+?) differ$/` applied to a line: scan
for a start position whose suffix is `" and b/" ++ X ++ " differ"` with `X`
non-empty and dot-matchable; the first such position wins and the capture
is `X`. -/
def binPathMatch : Str → Option Str
  | [] => none
  | c :: cs =>
    if startsWithStr " and b/".data (c :: cs) then
      match stripSuffixStr " differ".data ((c :: cs).drop 7) with
      | some x => if x ≠ [] ∧ x.all jsDot then some x else binPathMatch cs
      | none => binPathMatch cs
    else binPathMatch cs

/-- The line loop of `extractBinaryOpsFromDiff`, tracking the most recent
`+++ b/` path. -/
def eboGo (currentFile : Option Str) : List Str → List FileOp
  | [] => []
  | l :: ls =>
    if startsWithStr "diff --git ".data l then eboGo none ls
    else if startsWithStr "+++ b/".data l then eboGo (some (l.drop 6)) ls
    else if startsWithStr "Binary files ".data l then
      match (binPathMatch l <|> currentFile).map jsTrim with
      | some p =>
        if p ≠ [] then makeOp .binary p none :: eboGo currentFile ls
        else eboGo currentFile ls
      | none => eboGo currentFile ls
    else eboGo currentFile ls

/-- `extractBinaryOpsFromDiff`. -/
def extractBinaryOpsFromDiff (diff : Str) : List FileOp := eboGo none (splitLinesRN diff)

/-! ## Snapshot reconciliation (`dedupeOps`, `collectWorkingTreeSnapshot`) -/

/-- The ids of an op list in order of first occurrence, without
duplicates (the key order of a JS `Map` built by repeated `set`). -/
def dedupeKeys : List FileOp → List Str
  | [] => []
  | o :: rest => o.id :: (dedupeKeys rest).filter (fun k => decide (k ≠ o.id))

/-- The last op written under a given id (a JS `Map.set` overwrites the
value but keeps the key position). -/
def lastById (ops : List FileOp) (k : Str) : Option FileOp :=
  (ops.filter (fun o => decide (o.id = k))).getLast?

/-- `dedupeOps`: deduplicate by id via a JS `Map` — first-insertion key
order, last-write-wins values. -/
def dedupeOps (ops : List FileOp) : List FileOp :=
  (dedupeKeys ops).filterMap (lastById ops)

inductive SnapErr
  | unmergedNotSupported
deriving DecidableEq, Repr

/-- Pure core of `collectWorkingTreeSnapshot`: the two git reads (status
text and diff text) are inputs; the function reconciles status ops with
binary ops, extends the unsplittable path set with every op path, and
filters hunks whose file is unsplittable.  Throwing on unmerged entries is
modelled as `Except.error`. -/
def collectWorkingTreeSnapshot (statusRaw diff : Str) :
    Except SnapErr (List Hunk × List FileOp) :=
  let st := parsePorcelainV2Z statusRaw
  if st.hasUnmerged then .error .unmergedNotSupported
  else
    let binaryOps := extractBinaryOpsFromDiff diff
    let opsAll := dedupeOps (st.ops ++ binaryOps)
    let unsplittable := st.unsplittablePaths ++ opsAll.map FileOp.path
    let hunks := (parseUnifiedDiff diff).filter (fun h => decide (h.file ∉ unsplittable))
    .ok (hunks, opsAll)

/-! ## Commit-header check (`isConventionalCommitHeader`) -/

def isAsciiLower (c : Char) : Bool := 'a' ≤ c && c ≤ 'z'

/-- Deterministic matcher for the anchored regex
`^[a-z]+(\([^)]+\))?:\s.{1,72}$`.  The greedy `[a-z]+` run is maximal (the
character that follows it is `(` or `:` in any match), the scope content
runs to the first `)`, then one whitespace character and 1–72
dot-matchable subject characters reach the end of the string. -/
def ccMatch (cs : Str) : Bool :=
  if cs.takeWhile isAsciiLower = [] then false
  else
    match cs.dropWhile isAsciiLower with
    | [] => false
    | c1 :: r2 =>
      if c1 = '(' then
        match r2.dropWhile (fun c => decide (c ≠ ')')) with
        | c3 :: c4 :: w :: subj =>
          if c3 = ')' ∧ c4 = ':' then
            decide (r2.takeWhile (fun c => decide (c ≠ ')')) ≠ []) && isJsWs w &&
              decide (1 ≤ subj.length) && decide (subj.length ≤ 72) && subj.all jsDot
          else false
        | _ => false
      else if c1 = ':' then
        match r2 with
        | w :: subj =>
          isJsWs w && decide (1 ≤ subj.length) && decide (subj.length ≤ 72) && subj.all jsDot
        | _ => false
      else false

/-- `isConventionalCommitHeader`: test the regex against the trimmed
message. -/
def isConventionalCommitHeader (s : Str) : Bool := ccMatch (jsTrim s)

/-! ## Plan validation (`validatePlan`) -/

inductive VErr
  | emptyPlan
  | emptyCommitMessage
  | emptyCommitNotAllowed (message : Str)
  | unknownHunkId (id : Str)
  | duplicateHunkId (id : Str)
  | unknownOpId (id : Str)
  | duplicateOpId (id : Str)
  | notConventionalCommit (message : Str)
  | missingItems (missingHunks missingOps : List Str)
deriving DecidableEq, Repr

/-- The per-commit id walk of `validatePlan`: reject ids outside the
universe or already seen, otherwise accumulate into the seen set. -/
def checkCommitIds (unknownE dupE : Str → VErr) (univ : List Str) :
    List Str → List Str → Except VErr (List Str)
  | seen, [] => .ok seen
  | seen, id :: rest =>
    if id ∉ univ then .error (unknownE id)
    else if id ∈ seen then .error (dupE id)
    else checkCommitIds unknownE dupE univ (id :: seen) rest

/-- The commit loop of `validatePlan`: empty-message check, empty-commit
check, hunk-id walk, op-id walk, commit-message structure check. -/
def validateCommits (univH univO : List Str) :
    List Str → List Str → List PlanCommit → Except VErr (List Str × List Str)
  | seenH, seenO, [] => .ok (seenH, seenO)
  | seenH, seenO, c :: cs =>
    if jsTrim c.message = [] then .error .emptyCommitMessage
    else if ¬ 0 < c.hunks.length + c.ops.length then .error (.emptyCommitNotAllowed c.message)
    else
      match checkCommitIds .unknownHunkId .duplicateHunkId univH seenH c.hunks with
      | .error e => .error e
      | .ok seenH' =>
        match checkCommitIds .unknownOpId .duplicateOpId univO seenO c.ops with
        | .error e => .error e
        | .ok seenO' =>
          if ¬ isConventionalCommitHeader c.message then .error (.notConventionalCommit c.message)
          else validateCommits univH univO seenH' seenO' cs

/-- `validatePlan`: empty-plan check, commit loop, then coverage check of
both id universes. -/
def validatePlan (plan : Plan) (hunks : List Hunk) (ops : List FileOp) : Except VErr Unit :=
  if plan.commits.length = 0 then .error .emptyPlan
  else
    match validateCommits (hunks.map Hunk.id) (ops.map FileOp.id) [] [] plan.commits with
    | .error e => .error e
    | .ok (seenH, seenO) =>
      let missingHunks := (hunks.map Hunk.id).filter (fun i => decide (i ∉ seenH))
      let missingOps := (ops.map FileOp.id).filter (fun i => decide (i ∉ seenO))
      if missingHunks.length ≠ 0 ∨ missingOps.length ≠ 0 then
        .error (.missingItems missingHunks missingOps)
      else .ok ()

/-! ## JSON object extraction (`extractJsonObjectBalanced`) -/

/-- JavaScript `text.indexOf(ch)` for a single character. -/
def indexOfChar (ch : Char) : Str → Option Nat
  | [] => none
  | c :: cs => if c = ch then some 0 else (indexOfChar ch cs).map (· + 1)

/-- The scanning loop of `extractJsonObjectBalanced`, started on the
suffix beginning at the first `{`: track brace depth and double-quoted
string state (with backslash escapes); return the length of the prefix
ending at the `}` that brings the depth to zero, or `none` if the text is
exhausted first. -/
def scanBalanced (depth : Int) (inStr esc : Bool) : Str → Option Nat
  | [] => none
  | c :: cs =>
    if inStr then
      if esc then (scanBalanced depth inStr false cs).map (· + 1)
      else if c = '\\' then (scanBalanced depth inStr true cs).map (· + 1)
      else if c = '"' then (scanBalanced depth false esc cs).map (· + 1)
      else (scanBalanced depth inStr esc cs).map (· + 1)
    else
      if c = '"' then (scanBalanced depth true esc cs).map (· + 1)
      else if c = '{' then (scanBalanced (depth + 1) inStr esc cs).map (· + 1)
      else if c = '}' then
        if depth - 1 = 0 then some 1
        else (scanBalanced (depth - 1) inStr esc cs).map (· + 1)
      else (scanBalanced depth inStr esc cs).map (· + 1)

/-- `extractJsonObjectBalanced`: locate the first `{`, scan for the
balancing `}`, return the trimmed slice; `none` models the thrown
"Model did not return JSON." error. -/
def extractJsonObjectBalanced (text : Str) : Option Str :=
  match indexOfChar '{' text with
  | none => none
  | some start =>
    match scanBalanced 0 false false (text.drop start) with
    | some n => some (jsTrim ((text.drop start).take n))
    | none => none

/-! ## Plan application (`applyPlan`)

The git subprocess is abstracted as an oracle from a state and an issued
call to `none` (non-zero exit, i.e. a thrown error) or the produced stdout
and successor state.  Every function additionally returns the trace of
issued calls with their success flags; cancellation (checked between
commits in the source) is modelled as never requested, and the
`console.log` after each commit has no observable effect. -/

structure GitCall where
  args : List Str
  stdin : Option Str
deriving DecidableEq, Repr

structure TraceEntry where
  call : GitCall
  ok : Bool
deriving DecidableEq, Repr

def GitOracle (σ : Type) := σ → GitCall → Option (Str × σ)

inductive ApplyErr
  | unknownHunkIdInPlan (id : Str)
  | unknownOpIdInPlan (id : Str)
  | renameMissingOrig (id : Str)
  | nothingStaged (message : Str)
  | gitFailed (args : List Str)
deriving DecidableEq, Repr

structure FileGroup where
  file : Str
  header : List Str
  hunksLines : List (List Str)
deriving DecidableEq, Repr

/-- One step of building `patchesByFile`: a JS `Map` keyed by file, the
header taken from the first hunk seen for that file, the hunk line blocks
appended in reference order. -/
def addToGroups : List FileGroup → Hunk → List FileGroup
  | [], h => [⟨h.file, h.fileHeader, [h.hunkLines]⟩]
  | g :: gs, h =>
    if g.file = h.file then ⟨g.file, g.header, g.hunksLines ++ [h.hunkLines]⟩ :: gs
    else g :: addToGroups gs h

/-- Resolve the referenced hunk ids of a commit, failing on an unknown
id exactly as the staging loop of `applyPlan` does. -/
def resolveHunks (tbl : Str → Option Hunk) : List Str → Except ApplyErr (List Hunk)
  | [] => .ok []
  | i :: rest =>
    match tbl i with
    | none => .error (.unknownHunkIdInPlan i)
    | some h => (resolveHunks tbl rest).map (h :: ·)

/-- The `patchParts` array: per file group, the joined header, then each
joined hunk block, then an empty part (the blank-line separator). -/
def patchParts (groups : List FileGroup) : List Str :=
  (groups.map (fun g => joinSep '\n' g.header :: (g.hunksLines.map (joinSep '\n') ++ [[]]))).join

/-- The composite patch before newline collapsing:
`patchParts.join("\n")`. -/
def rawPatchText (c : PlanCommit) (hunkById : Str → Option Hunk) : Except ApplyErr Str :=
  (resolveHunks hunkById c.hunks).map
    (fun hs => joinSep '\n' (patchParts (hs.foldl addToGroups [])))

def clampNl (k : Nat) : Nat := if 3 ≤ k then 2 else k

/-- Worker for `collapseNl`: `k` counts the pending run of newline
characters, flushed (clamped to two) at each non-newline character and at
the end. -/
def cnGo : Nat → Str → Str
  | k, [] => List.replicate (clampNl k) '\n'
  | k, c :: cs =>
    if c = '\n' then cnGo (k + 1) cs
    else List.replicate (clampNl k) '\n' ++ c :: cnGo 0 cs

/-- JavaScript `s.replace(/\n{3,}/g, "\n\n")`: every maximal run of three
or more newline characters becomes exactly two. -/
def collapseNl (s : Str) : Str := cnGo 0 s

/-- The composite patch text of one planned commit. -/
def buildPatchText (c : PlanCommit) (hunkById : Str → Option Hunk) : Except ApplyErr Str :=
  (rawPatchText c hunkById).map collapseNl

/-- The single git invocation staging one `FileOp`, per the `switch` of
`applyPlan`; a rename with a falsy `origPath` is the thrown
`renameMissingOrig` error. -/
def stageOpCall (op : FileOp) : Except ApplyErr GitCall :=
  match op.kind with
  | .add => .ok ⟨["add".data, "--".data, op.path], none⟩
  | .binary => .ok ⟨["add".data, "--".data, op.path], none⟩
  | .typechange => .ok ⟨["add".data, "--".data, op.path], none⟩
  | .delete => .ok ⟨["add".data, "-u".data, "--".data, op.path], none⟩
  | .rename =>
    match op.origPath with
    | none => .error (.renameMissingOrig op.id)
    | some o =>
      if o = [] then .error (.renameMissingOrig op.id)
      else .ok ⟨["add".data, "-A".data, "--".data, o, op.path], none⟩
  | .copy => .ok ⟨["add".data, "--".data, op.path], none⟩

/-- The op-staging loop of `applyPlan` for one commit. -/
def stageOps {σ : Type} (git : GitOracle σ) (opById : Str → Option FileOp) :
    σ → List Str → Except ApplyErr σ × List TraceEntry
  | s, [] => (.ok s, [])
  | s, i :: rest =>
    match opById i with
    | none => (.error (.unknownOpIdInPlan i), [])
    | some op =>
      match stageOpCall op with
      | .error e => (.error e, [])
      | .ok call =>
        match git s call with
        | none => (.error (.gitFailed call.args), [⟨call, false⟩])
        | some (_, s') =>
          let (r, tr) := stageOps git opById s' rest
          (r, ⟨call, true⟩ :: tr)

def applyCallOf (patchText : Str) : GitCall :=
  ⟨["apply".data, "--cached".data, "--3way".data, "--whitespace=nowarn".data, "-".data],
   some patchText⟩

def stagedReadCall : GitCall := ⟨["diff".data, "--cached".data, "--name-only".data], none⟩

def resetIndexCall : GitCall := ⟨["reset".data], none⟩

/-- The `git commit` invocation: message, plus trimmed body as a second
paragraph when non-blank. -/
def commitCallOf (c : PlanCommit) : GitCall :=
  ⟨["commit".data, "-m".data, c.message] ++
    (match c.body with
     | some b => if jsTrim b ≠ [] then ["-m".data, jsTrim b] else []
     | none => []), none⟩

/-- Apply the composite patch to the index when non-blank. -/
def applyPatchStep {σ : Type} (git : GitOracle σ) (s : σ) (patchText : Str) :
    Except ApplyErr σ × List TraceEntry :=
  if jsTrim patchText ≠ [] then
    match git s (applyCallOf patchText) with
    | none => (.error (.gitFailed (applyCallOf patchText).args), [⟨applyCallOf patchText, false⟩])
    | some (_, s1) => (.ok s1, [⟨applyCallOf patchText, true⟩])
  else (.ok s, [])

/-- Steps 1–2 of the per-commit algorithm: build the composite patch,
apply it to the index, stage the referenced operations. -/
def stagePhase {σ : Type} (git : GitOracle σ) (s : σ) (c : PlanCommit)
    (hunkById : Str → Option Hunk) (opById : Str → Option FileOp) :
    Except ApplyErr σ × List TraceEntry :=
  match buildPatchText c hunkById with
  | .error e => (.error e, [])
  | .ok patchText =>
    match applyPatchStep git s patchText with
    | (.error e, tr) => (.error e, tr)
    | (.ok s1, tr1) =>
      let (r, tr2) := stageOps git opById s1 c.ops
      (r, tr1 ++ tr2)

/-- Steps 1–4 of the per-commit algorithm of `applyPlan`: stage, read the
staged set back, refuse an empty index, commit, reset. -/
def applyCommit {σ : Type} (git : GitOracle σ) (s : σ) (c : PlanCommit)
    (hunkById : Str → Option Hunk) (opById : Str → Option FileOp) :
    Except ApplyErr σ × List TraceEntry :=
  match stagePhase git s c hunkById opById with
  | (.error e, tr) => (.error e, tr)
  | (.ok s2, tr) =>
    match git s2 stagedReadCall with
    | none => (.error (.gitFailed stagedReadCall.args), tr ++ [⟨stagedReadCall, false⟩])
    | some (out, s3) =>
      if jsTrim out = [] then
        (.error (.nothingStaged c.message), tr ++ [⟨stagedReadCall, true⟩])
      else
        match git s3 (commitCallOf c) with
        | none =>
          (.error (.gitFailed (commitCallOf c).args),
           tr ++ [⟨stagedReadCall, true⟩, ⟨commitCallOf c, false⟩])
        | some (_, s4) =>
          match git s4 resetIndexCall with
          | none =>
            (.error (.gitFailed resetIndexCall.args),
             tr ++ [⟨stagedReadCall, true⟩, ⟨commitCallOf c, true⟩, ⟨resetIndexCall, false⟩])
          | some (_, s5) =>
            (.ok s5,
             tr ++ [⟨stagedReadCall, true⟩, ⟨commitCallOf c, true⟩, ⟨resetIndexCall, true⟩])

/-- The commit loop of `applyPlan`. -/
def applyPlanGo {σ : Type} (git : GitOracle σ) (hunkById : Str → Option Hunk)
    (opById : Str → Option FileOp) : σ → List PlanCommit → Except ApplyErr σ × List TraceEntry
  | s, [] => (.ok s, [])
  | s, c :: cs =>
    match applyCommit git s c hunkById opById with
    | (.error e, tr) => (.error e, tr)
    | (.ok s', tr) =>
      let (r, tr') := applyPlanGo git hunkById opById s' cs
      (r, tr ++ tr')

/-- Lookup in a JS `Map` built from an entry list: last write wins. -/
def hunkLookup (hunks : List Hunk) (i : Str) : Option Hunk :=
  (hunks.filter (fun h => decide (h.id = i))).getLast?

/-- Lookup in a JS `Map` built from an entry list: last write wins. -/
def opLookup (ops : List FileOp) (i : Str) : Option FileOp :=
  (ops.filter (fun o => decide (o.id = i))).getLast?

/-- `applyPlan`: build the id lookup tables and run the commit loop. -/
def applyPlan {σ : Type} (git : GitOracle σ) (s : σ) (plan : Plan)
    (hunks : List Hunk) (ops : List FileOp) : Except ApplyErr σ × List TraceEntry :=
  applyPlanGo git (hunkLookup hunks) (opLookup ops) s plan.commits

/-! ## Specification-side predicates

These definitions follow the words of the specification (not the source)
and are compared with the source-derived functions in the theorems
below. -/

/-- The language of the commit-header shape `type[(scope)]: subject`
described by the spec: a non-empty lowercase type, an optional
parenthesised non-empty scope free of `)`, a colon, one whitespace
separator character, and a subject of 1–72 line characters. -/
def SpecHeaderShape (cs : Str) : Prop :=
  ∃ t sc w subj,
    cs = t ++ sc ++ ':' :: w :: subj ∧
    t ≠ [] ∧ (∀ c ∈ t, isAsciiLower c) ∧
    (sc = [] ∨ ∃ inner, inner ≠ [] ∧ (∀ c ∈ inner, c ≠ ')') ∧ sc = '(' :: (inner ++ [')'])) ∧
    isJsWs w ∧ 1 ≤ subj.length ∧ subj.length ≤ 72 ∧ (∀ c ∈ subj, jsDot c)

/-- State of the brace/string automaton used to specify balancedness. -/
structure ScanSt where
  depth : Int
  inStr : Bool
  esc : Bool
deriving DecidableEq, Repr

/-- One character step of the brace/string automaton: inside a string an
escaped character is skipped, a backslash escapes, a quote closes;
outside, a quote opens a string and braces move the depth. -/
def stepScan (st : ScanSt) (c : Char) : ScanSt :=
  if st.inStr then
    if st.esc then { st with esc := false }
    else if c = '\\' then { st with esc := true }
    else if c = '"' then { st with inStr := false }
    else st
  else
    if c = '"' then { st with inStr := true }
    else if c = '{' then { st with depth := st.depth + 1 }
    else if c = '}' then { st with depth := st.depth - 1 }
    else st

def runScan (st : ScanSt) (cs : Str) : ScanSt := cs.foldl stepScan st

def initScan : ScanSt := ⟨0, false, false⟩

/-- `n` is the position of the balancing `}` for a suffix that starts at a
`{`: the automaton depth first returns to zero after exactly `n`
characters. -/
def BalancedEndAt (suffix : Str) (n : Nat) : Prop :=
  1 ≤ n ∧ n ≤ suffix.length ∧ (runScan initScan (suffix.take n)).depth = 0 ∧
  ∀ m, 1 ≤ m → m < n → (runScan initScan (suffix.take m)).depth ≠ 0

/-- The spec-side description of a successful extraction: the text splits
at its first `{`, some balancing end exists for that suffix, and the
result is the (trimmed) balanced span. -/
def FirstBalancedResult (text o : Str) : Prop :=
  ∃ pre rest n,
    text = pre ++ '{' :: rest ∧ '{' ∉ pre ∧
    BalancedEndAt ('{' :: rest) n ∧ o = jsTrim (('{' :: rest).take n)

/-- Three consecutive newline characters occur somewhere in the string. -/
def hasTripleNl : Str → Bool
  | c1 :: c2 :: c3 :: rest =>
    (c1 = '\n' && c2 = '\n' && c3 = '\n') || hasTripleNl (c2 :: c3 :: rest)
  | _ => false

/-- A trace entry that is the index-reset invocation. -/
def isResetB (e : TraceEntry) : Bool := e.call = resetIndexCall

/-- A trace entry that is a successful `git commit` invocation. -/
def isCommitOkB (e : TraceEntry) : Bool :=
  (e.call.args.head? = some "commit".data) && e.ok

/-- Every reset entry in the list is immediately preceded by a successful
commit entry (`p` is the entry preceding the list head). -/
def resetChainOK : TraceEntry → List TraceEntry → Bool
  | _, [] => true
  | p, e :: rest => (!isResetB e || isCommitOkB p) && resetChainOK e rest

/-- Every reset entry of the trace is immediately preceded by a successful
commit entry (in particular the trace does not start with a reset). -/
def resetPlacementOK : List TraceEntry → Bool
  | [] => true
  | e :: rest => !isResetB e && resetChainOK e rest

/-- Some entry of the trace is a `git commit` invocation. -/
def hasCommitCall (tr : List TraceEntry) : Bool :=
  tr.any (fun e => e.call.args.head? = some "commit".data)

/-- The `x` status character of a porcelain `1` record token. -/
def rec1x (t : Str) : Char := (((splitOnChar ' ' t).getD 1 "..".data).get? 0).getD '.'

/-- The `y` status character of a porcelain `1` record token. -/
def rec1y (t : Str) : Char := (((splitOnChar ' ' t).getD 1 "..".data).get? 1).getD '.'

/-- The path of a porcelain `1` record token: everything after the eighth
space-separated field. -/
def rec1path (t : Str) : Str := joinSep ' ' ((splitOnChar ' ' t).drop 8)

instance {e a : Type} [DecidableEq e] [DecidableEq a] : DecidableEq (Except e a) := fun x y =>
  match x, y with
  | .error u, .error v => decidable_of_iff (u = v) (by simp)
  | .ok u, .ok v => decidable_of_iff (u = v) (by simp)
  | .error _, .ok _ => isFalse (fun hh => Except.noConfusion hh)
  | .ok _, .error _ => isFalse (fun hh => Except.noConfusion hh)

/-! ## Concrete inputs used by the witnesses below -/

def snapStatusW : Str := "? b.txt".data

def snapDiffW : Str :=
  ("diff --git a/a.txt b/a.txt\n" ++ "index 1111111..2222222 100644\n" ++
   "--- a/a.txt\n" ++ "+++ b/a.txt\n" ++ "@@ -1 +1 @@\n" ++ "-x\n" ++ "+y").data

def hunkW : Hunk :=
  { id := ("h" ++ "a.txt\n@@ -1 +1 @@\n-x\n+y").data
    file := "a.txt".data
    fileHeader := ["diff --git a/a.txt b/a.txt".data, "index 1111111..2222222 100644".data,
                   "--- a/a.txt".data, "+++ b/a.txt".data]
    hunkLines := ["@@ -1 +1 @@".data, "-x".data, "+y".data]
    patchText := ("diff --git a/a.txt b/a.txt\nindex 1111111..2222222 100644\n" ++
                  "--- a/a.txt\n+++ b/a.txt\n@@ -1 +1 @@\n-x\n+y").data
    stats := (1, 1) }

def opW : FileOp :=
  { id := "opadd||b.txt".data, kind := .add, path := "b.txt".data, origPath := none }

def rec1tokW : Str := "1 D. N... 100644 100644 000000 aaa bbb a b.txt".data

def planW : Plan :=
  { commits := [{ message := "chore: initial".data, body := none,
                  hunks := [("h" ++ "a.txt\n@@ -1 +1 @@\n-x\n+y").data],
                  ops := ["opadd||b.txt".data] }] }

def copyOpW : FileOp :=
  { id := "opcopy|src.txt|dst.txt".data, kind := .copy,
    path := "dst.txt".data, origPath := some "src.txt".data }

def renameOpW : FileOp :=
  { id := "oprename|old.txt|new.txt".data, kind := .rename,
    path := "new.txt".data, origPath := some "old.txt".data }

def failApplyGit : GitOracle Unit := fun _ call =>
  if call.args.head? = some "apply".data then none else some ([], ())

def cexCommitW : PlanCommit :=
  { message := "fix: a".data, body := none,
    hunks := [("h" ++ "a.txt\n@@ -1 +1 @@\n-x\n+y").data], ops := [] }

def emptyGitW : GitOracle Unit := fun _ _ => some ([], ())

def emptyCommitW : PlanCommit :=
  { message := "chore: x".data, body := none, hunks := [], ops := [] }

def patchTextW : Str :=
  ("diff --git a/a.txt b/a.txt\nindex 1111111..2222222 100644\n--- a/a.txt\n" ++
   "+++ b/a.txt\n@@ -1 +1 @@\n-x\n+y\n").data

/-- Generalisation of `BalancedEndAt` to an arbitrary start state of the
brace/string automaton (used to state the scanning-loop invariant). -/
def ScanCond (st : ScanSt) (cs : Str) (n : Nat) : Prop :=
  1 ≤ n ∧ n ≤ cs.length ∧ (runScan st (cs.take n)).depth = 0 ∧
  ∀ m, 1 ≤ m → m < n → (runScan st (cs.take m)).depth ≠ 0

/-! # Theorems -/

theorem splitOnChar_ne_nil (sep : Char) (l : Str) : splitOnChar sep l ≠ [] := by
  cases l with
  | nil => simp [splitOnChar]
  | cons c cs =>
    simp only [splitOnChar]
    split
    · simp
    · split <;> simp

theorem joinSep_splitOnChar (sep : Char) (l : Str) : joinSep sep (splitOnChar sep l) = l := by
  induction l with
  | nil => rfl
  | cons c cs ih =>
    simp only [splitOnChar]
    split
    · rename_i hc
      subst hc
      rcases hs : splitOnChar c cs with _ | ⟨t, ts⟩
      · exact absurd hs (splitOnChar_ne_nil c cs)
      · rw [hs] at ih
        simp only [joinSep, List.nil_append]
        rw [← ih]
    · rcases hs : splitOnChar sep cs with _ | ⟨t, ts⟩
      · exact absurd hs (splitOnChar_ne_nil sep cs)
      · rw [hs] at ih
        cases ts with
        | nil => simp only [joinSep] at ih ⊢; rw [ih]
        | cons t' ts' =>
          simp only [joinSep, List.cons_append] at ih ⊢
          rw [← ih]

theorem joinSep_append (sep : Char) (A B : List Str) (hA : A ≠ []) (hB : B ≠ []) :
    joinSep sep (A ++ B) = joinSep sep A ++ sep :: joinSep sep B := by
  induction A with
  | nil => exact absurd rfl hA
  | cons x xs ih =>
    cases xs with
    | nil =>
      cases B with
      | nil => exact absurd rfl hB
      | cons b bs => simp [joinSep]
    | cons x' xs' =>
      have h' := ih (by simp)
      simp only [List.cons_append, joinSep, List.append_eq] at h' ⊢
      rw [h']
      simp [List.append_assoc]

/-- **C7**: For every Snapshot produced by the reconciliation step
(deduplicated status plus binary operations, hunks filtered by
unsplittable paths), no Hunk in the Snapshot has a `file` equal to the
`path` of any FileOperation in the same Snapshot. -/
theorem snapshot_ops_hunks_disjoint (statusRaw diff : Str)
    (hunks : List Hunk) (ops : List FileOp)
    (h : collectWorkingTreeSnapshot statusRaw diff = .ok (hunks, ops)) :
    ∀ hk ∈ hunks, ∀ op ∈ ops, hk.file ≠ op.path := by
  intro hk hkmem op opmem heq
  unfold collectWorkingTreeSnapshot at h
  simp only [] at h
  split at h
  · simp at h
  · simp only [Except.ok.injEq, Prod.mk.injEq] at h
    obtain ⟨hh, ho⟩ := h
    rw [← hh] at hkmem
    have hpred := List.of_mem_filter hkmem
    simp only [decide_eq_true_eq] at hpred
    apply hpred
    apply List.mem_append_right
    rw [← ho] at opmem
    rw [heq]
    exact List.mem_map_of_mem FileOp.path opmem

/-- **C9**: the status parser is total by construction
(`parsePorcelainV2Z` is a Lean function defined for every input string);
a record token whose leading marker is not one of `#`, `?`, `u`, `1`, `2`,
or whose field count is short for its record kind, contributes no
FileOperation, no unsplittable path, and does not set the conflict
flag. -/
theorem parseTokens_unknown_record (t : Str) (rest : List Str)
    (h : (t ≠ [] ∧ t.head? ≠ some '#' ∧ t.head? ≠ some '?' ∧ t.head? ≠ some 'u' ∧
            t.head? ≠ some '1' ∧ t.head? ≠ some '2') ∨
         (t.head? = some '1' ∧ (splitOnChar ' ' t).length < 9) ∨
         (t.head? = some '2' ∧ (splitOnChar ' ' t).length < 10)) :
    parseTokens (t :: rest) = parseTokens rest := by
  have hne : t ≠ [] := by
    rcases h with ⟨h1, _⟩ | ⟨h1, _⟩ | ⟨h1, _⟩
    · exact h1
    all_goals
      intro he
      rw [he] at h1
      simp at h1
  show parseTokensGo (t :: rest).length (t :: rest) = parseTokens rest
  rw [List.length_cons]
  rcases h with ⟨_, h2, h3, h4, h5, h6⟩ | ⟨h1, h9⟩ | ⟨h1, h10⟩
  · simp [parseTokensGo, hne, h2, h3, h4, h5, h6, parseTokens]
  · simp [parseTokensGo, hne, h1, h9, parseTokens]
  · simp [parseTokensGo, hne, h1, h10, parseTokens]

/-- **C6**: a porcelain `1` record with its 8 leading fields present takes
its path to be everything after the 8th space-separated field (paths with
spaces survive the split/join round trip, witnessed by the decomposition
equation); it contributes a delete FileOperation when either XY character
is `D`, a type-change FileOperation when neither is `D` and either is `T`,
and nothing otherwise. -/
theorem parseTokens_ordinary_record (t : Str) (rest : List Str)
    (h1 : t.head? = some '1') (h9 : 9 ≤ (splitOnChar ' ' t).length) :
    (rec1x t = 'D' ∨ rec1y t = 'D' →
       parseTokens (t :: rest) =
         ⟨makeOp .delete (rec1path t) none :: (parseTokens rest).ops,
          rec1path t :: (parseTokens rest).unsplittablePaths,
          (parseTokens rest).hasUnmerged⟩) ∧
    (¬(rec1x t = 'D' ∨ rec1y t = 'D') → (rec1x t = 'T' ∨ rec1y t = 'T') →
       parseTokens (t :: rest) =
         ⟨makeOp .typechange (rec1path t) none :: (parseTokens rest).ops,
          rec1path t :: (parseTokens rest).unsplittablePaths,
          (parseTokens rest).hasUnmerged⟩) ∧
    (¬(rec1x t = 'D' ∨ rec1y t = 'D') → ¬(rec1x t = 'T' ∨ rec1y t = 'T') →
       parseTokens (t :: rest) = parseTokens rest) ∧
    t = joinSep ' ' ((splitOnChar ' ' t).take 8) ++ ' ' :: rec1path t := by
  have hne : t ≠ [] := by intro he; rw [he] at h1; simp at h1
  have hlt : ¬ (splitOnChar ' ' t).length < 9 := by omega
  have hstep : parseTokens (t :: rest) =
      (if rec1x t = 'D' ∨ rec1y t = 'D' then
         ⟨makeOp .delete (rec1path t) none :: (parseTokens rest).ops,
          rec1path t :: (parseTokens rest).unsplittablePaths,
          (parseTokens rest).hasUnmerged⟩
       else if rec1x t = 'T' ∨ rec1y t = 'T' then
         ⟨makeOp .typechange (rec1path t) none :: (parseTokens rest).ops,
          rec1path t :: (parseTokens rest).unsplittablePaths,
          (parseTokens rest).hasUnmerged⟩
       else parseTokens rest) := by
    show parseTokensGo (t :: rest).length (t :: rest) = _
    rw [List.length_cons]
    simp only [parseTokensGo, h1, hne, hlt, rec1x, rec1y, rec1path, parseTokens,
      if_false, if_true, Option.some.injEq, reduceCtorEq, false_or, or_false,
      if_neg, decide_eq_true_eq]
    rw [if_neg (by decide : ¬ ('1' : Char) = '#'), if_neg (by decide : ¬ ('1' : Char) = '?'),
      if_neg (by decide : ¬ ('1' : Char) = 'u')]
  have htake : (splitOnChar ' ' t).take 8 ≠ [] := by
    intro he
    have := congrArg List.length he
    simp only [List.length_take, List.length_nil] at this
    omega
  have hdrop : (splitOnChar ' ' t).drop 8 ≠ [] := by
    intro he
    have := congrArg List.length he
    simp only [List.length_drop, List.length_nil] at this
    omega
  refine ⟨?_, ?_, ?_, ?_⟩
  · intro hd
    rw [hstep, if_pos hd]
  · intro hd ht
    rw [hstep, if_neg hd, if_pos ht]
  · intro hd ht
    rw [hstep, if_neg hd, if_neg ht]
  · calc t = joinSep ' ' (splitOnChar ' ' t) := (joinSep_splitOnChar ' ' t).symm
      _ = joinSep ' ' ((splitOnChar ' ' t).take 8 ++ (splitOnChar ' ' t).drop 8) := by
          rw [List.take_append_drop]
      _ = joinSep ' ' ((splitOnChar ' ' t).take 8) ++ ' ' :: rec1path t :=
          joinSep_append ' ' _ _ htake hdrop

/-- Witness for the C7 theorem at a concrete status/diff input. -/
theorem snapshot_ops_hunks_disjoint_witness :
    collectWorkingTreeSnapshot snapStatusW snapDiffW = .ok ([hunkW], [opW]) ∧
    hunkW.file ≠ opW.path :=
  ⟨by decide,
   snapshot_ops_hunks_disjoint snapStatusW snapDiffW [hunkW] [opW] (by decide)
     hunkW (by decide) opW (by decide)⟩

/-- Witness for the C9 theorem: an unrecognized record marker contributes
nothing. -/
theorem parseTokens_unknown_record_witness :
    parseTokens ["x 1".data, "? a.txt".data] = parseTokens ["? a.txt".data] :=
  parseTokens_unknown_record "x 1".data ["? a.txt".data]
    (Or.inl ⟨by decide, by decide, by decide, by decide, by decide, by decide⟩)

/-- Witness for the C6 theorem: a deleted path containing a space. -/
theorem parseTokens_ordinary_record_witness :
    parseTokens [rec1tokW] =
      ⟨[makeOp .delete "a b.txt".data none], ["a b.txt".data], false⟩ := by
  have h := (parseTokens_ordinary_record rec1tokW [] (by decide) (by decide)).1 (by decide)
  rw [h]
  decide

theorem checkCommitIds_ok (uE dE : Str → VErr) (univ : List Str) (ids : List Str) :
    ∀ seen seen', checkCommitIds uE dE univ seen ids = .ok seen' →
      seen' = ids.reverse ++ seen ∧ ids.Nodup ∧ ∀ x ∈ ids, x ∈ univ ∧ x ∉ seen := by
  induction ids with
  | nil =>
    intro seen seen' h
    simp only [checkCommitIds, Except.ok.injEq] at h
    subst h
    simp
  | cons i rest ih =>
    intro seen seen' h
    simp only [checkCommitIds] at h
    by_cases hu : i ∈ univ
    · rw [if_neg (by simpa using hu)] at h
      by_cases hs : i ∈ seen
      · rw [if_pos hs] at h
        exact absurd h (by simp)
      · rw [if_neg hs] at h
        obtain ⟨hseen, hnd, hmem⟩ := ih (i :: seen) seen' h
        refine ⟨?_, ?_, ?_⟩
        · rw [hseen]
          simp [List.reverse_cons, List.append_assoc]
        · refine List.Nodup.cons ?_ hnd
          intro hir
          exact (hmem i hir).2 (List.mem_cons_self i seen)
        · intro x hx
          rcases List.mem_cons.mp hx with hxi | hxr
          · subst hxi
            exact ⟨hu, hs⟩
          · obtain ⟨hxu, hxs⟩ := hmem x hxr
            exact ⟨hxu, fun hc => hxs (List.mem_cons_of_mem i hc)⟩
    · rw [if_pos (by simpa using hu)] at h
      exact absurd h (by simp)

theorem validateCommits_ok (univH univO : List Str) (cs : List PlanCommit) :
    ∀ seenH seenO fH fO, validateCommits univH univO seenH seenO cs = .ok (fH, fO) →
      fH = (cs.map PlanCommit.hunks).join.reverse ++ seenH ∧
      fO = (cs.map PlanCommit.ops).join.reverse ++ seenO ∧
      (cs.map PlanCommit.hunks).join.Nodup ∧
      (cs.map PlanCommit.ops).join.Nodup ∧
      (∀ x ∈ (cs.map PlanCommit.hunks).join, x ∈ univH ∧ x ∉ seenH) ∧
      (∀ x ∈ (cs.map PlanCommit.ops).join, x ∈ univO ∧ x ∉ seenO) := by
  induction cs with
  | nil =>
    intro seenH seenO fH fO h
    simp only [validateCommits, Except.ok.injEq, Prod.mk.injEq] at h
    obtain ⟨h1, h2⟩ := h
    subst h1; subst h2
    simp
  | cons c cs' ih =>
    intro seenH seenO fH fO h
    simp only [validateCommits] at h
    split at h
    · exact absurd h (by simp)
    · split at h
      · exact absurd h (by simp)
      · rcases hH : checkCommitIds VErr.unknownHunkId VErr.duplicateHunkId univH seenH c.hunks
          with eH | seenH'
        · rw [hH] at h; exact absurd h (by simp)
        · rw [hH] at h
          simp only [] at h
          rcases hO : checkCommitIds VErr.unknownOpId VErr.duplicateOpId univO seenO c.ops
            with eO | seenO'
          · rw [hO] at h; exact absurd h (by simp)
          · rw [hO] at h
            simp only [] at h
            split at h
            · exact absurd h (by simp)
            · obtain ⟨hsH, hndH, hmemH⟩ := checkCommitIds_ok _ _ _ _ _ _ hH
              obtain ⟨hsO, hndO, hmemO⟩ := checkCommitIds_ok _ _ _ _ _ _ hO
              obtain ⟨hfH, hfO, hndH', hndO', hmemH', hmemO'⟩ := ih seenH' seenO' fH fO h
              have hsubH : ∀ x ∈ (cs'.map PlanCommit.hunks).join, x ∉ c.hunks := by
                intro x hx hcx
                exact (hmemH' x hx).2 (by rw [hsH]; exact List.mem_append_left _ (by simpa using hcx))
              have hsubO : ∀ x ∈ (cs'.map PlanCommit.ops).join, x ∉ c.ops := by
                intro x hx hcx
                exact (hmemO' x hx).2 (by rw [hsO]; exact List.mem_append_left _ (by simpa using hcx))
              refine ⟨?_, ?_, ?_, ?_, ?_, ?_⟩
              · rw [hfH, hsH]
                simp [List.append_assoc]
              · rw [hfO, hsO]
                simp [List.append_assoc]
              · simp only [List.map_cons, List.join_cons]
                exact List.Nodup.append hndH hndH' (fun a ha hb => hsubH a hb ha)
              · simp only [List.map_cons, List.join_cons]
                exact List.Nodup.append hndO hndO' (fun a ha hb => hsubO a hb ha)
              · simp only [List.map_cons, List.join_cons, List.mem_append]
                rintro x (hx | hx)
                · exact hmemH x hx
                · obtain ⟨hxu, hxs⟩ := hmemH' x hx
                  refine ⟨hxu, fun hc => hxs ?_⟩
                  rw [hsH]
                  exact List.mem_append_right _ hc
              · simp only [List.map_cons, List.join_cons, List.mem_append]
                rintro x (hx | hx)
                · exact hmemO x hx
                · obtain ⟨hxu, hxs⟩ := hmemO' x hx
                  refine ⟨hxu, fun hc => hxs ?_⟩
                  rw [hsO]
                  exact List.mem_append_right _ hc

/-- **C1**: `validatePlan` returns successfully only if the union of all
commits' hunk-id lists is exactly the Snapshot hunk-id set with each id
referenced exactly once (no duplicates across or within commits, no
unknown id, no uncovered id), and likewise for op ids. -/
theorem validatePlan_exact_partition (plan : Plan) (hunks : List Hunk) (ops : List FileOp)
    (h : validatePlan plan hunks ops = .ok ()) :
    ((plan.commits.map PlanCommit.hunks).join.Nodup ∧
      (∀ i, i ∈ (plan.commits.map PlanCommit.hunks).join ↔ i ∈ hunks.map Hunk.id)) ∧
    ((plan.commits.map PlanCommit.ops).join.Nodup ∧
      (∀ i, i ∈ (plan.commits.map PlanCommit.ops).join ↔ i ∈ ops.map FileOp.id)) := by
  unfold validatePlan at h
  split at h
  · exact absurd h (by simp)
  · rcases hv : validateCommits (hunks.map Hunk.id) (ops.map FileOp.id) [] [] plan.commits
      with e | ⟨seenH, seenO⟩
    · rw [hv] at h; exact absurd h (by simp)
    · rw [hv] at h
      simp only [] at h
      split at h
      · exact absurd h (by simp)
      · rename_i hmiss
        push_neg at hmiss
        obtain ⟨hm1, hm2⟩ := hmiss
        have hfil1 := List.length_eq_zero.mp hm1
        have hfil2 := List.length_eq_zero.mp hm2
        have hcov1 : ∀ i ∈ hunks.map Hunk.id, i ∈ seenH := by
          intro i hi
          have := (List.filter_eq_nil.mp hfil1) i hi
          simpa using this
        have hcov2 : ∀ i ∈ ops.map FileOp.id, i ∈ seenO := by
          intro i hi
          have := (List.filter_eq_nil.mp hfil2) i hi
          simpa using this
        obtain ⟨hfH, hfO, hndH, hndO, hmemH, hmemO⟩ :=
          validateCommits_ok _ _ plan.commits [] [] seenH seenO hv
        rw [List.append_nil] at hfH hfO
        constructor
        · refine ⟨hndH, fun i => ⟨fun hi => (hmemH i hi).1, fun hi => ?_⟩⟩
          have := hcov1 i hi
          rw [hfH, List.mem_reverse] at this
          exact this
        · refine ⟨hndO, fun i => ⟨fun hi => (hmemO i hi).1, fun hi => ?_⟩⟩
          have := hcov2 i hi
          rw [hfO, List.mem_reverse] at this
          exact this

/-- Witness for the C1 theorem at a concrete validated plan. -/
theorem validatePlan_exact_partition_witness :
    validatePlan planW [hunkW] [opW] = .ok () ∧
    (((planW.commits.map PlanCommit.hunks).join.Nodup ∧
       (∀ i, i ∈ (planW.commits.map PlanCommit.hunks).join ↔ i ∈ [hunkW].map Hunk.id)) ∧
     ((planW.commits.map PlanCommit.ops).join.Nodup ∧
       (∀ i, i ∈ (planW.commits.map PlanCommit.ops).join ↔ i ∈ [opW].map FileOp.id))) :=
  ⟨by decide, validatePlan_exact_partition planW [hunkW] [opW] (by decide)⟩

/-- Counterexample to C2 as stated: for a `copy` operation carrying an
original path, the staging command contains only the destination path —
the original path is not staged together with it. -/
theorem stageOp_copy_not_both :
    stageOpCall copyOpW = .ok ⟨["add".data, "--".data, "dst.txt".data], none⟩ ∧
    copyOpW.origPath = some "src.txt".data ∧
    "src.txt".data ∉ ["add".data, "--".data, "dst.txt".data] :=
  ⟨by decide, by decide, by decide⟩

/-- **C2** (amended): staging a `rename` operation issues a single git
call containing both the original and the destination path, and a rename
with a missing (falsy) `origPath` is the fatal `renameMissingOrig` error;
staging a `copy` operation issues a call containing only the destination
path. -/
theorem stageOp_rename_copy (op : FileOp) :
    (op.kind = .rename → ∀ o, op.origPath = some o → o ≠ [] →
       stageOpCall op = .ok ⟨["add".data, "-A".data, "--".data, o, op.path], none⟩ ∧
       o ∈ ["add".data, "-A".data, "--".data, o, op.path] ∧
       op.path ∈ ["add".data, "-A".data, "--".data, o, op.path]) ∧
    (op.kind = .rename → (op.origPath = none ∨ op.origPath = some []) →
       stageOpCall op = .error (.renameMissingOrig op.id)) ∧
    (op.kind = .copy →
       stageOpCall op = .ok ⟨["add".data, "--".data, op.path], none⟩) := by
  obtain ⟨i, k, p, orig⟩ := op
  refine ⟨?_, ?_, ?_⟩
  · rintro rfl o rfl hne
    exact ⟨by simp [stageOpCall, hne], by simp, by simp⟩
  · rintro rfl (rfl | rfl) <;> simp [stageOpCall]
  · rintro rfl
    simp [stageOpCall]

/-- Witness for the amended C2 theorem at a concrete rename operation. -/
theorem stageOp_rename_copy_witness :
    stageOpCall renameOpW =
      .ok ⟨["add".data, "-A".data, "--".data, "old.txt".data, "new.txt".data], none⟩ ∧
    "old.txt".data ∈ ["add".data, "-A".data, "--".data, "old.txt".data, "new.txt".data] ∧
    "new.txt".data ∈ ["add".data, "-A".data, "--".data, "old.txt".data, "new.txt".data] :=
  (stageOp_rename_copy renameOpW).1 rfl "old.txt".data rfl (by decide)

theorem stageOpCall_head (op : FileOp) (call : GitCall) (h : stageOpCall op = .ok call) :
    call.args.head? = some "add".data := by
  obtain ⟨i, k, p, orig⟩ := op
  cases k <;> simp only [stageOpCall] at h
  case rename =>
    cases orig with
    | none => exact absurd h (by simp)
    | some o =>
      simp only [] at h
      by_cases ho : o = []
      · rw [if_pos ho] at h; exact absurd h (by simp)
      · rw [if_neg ho] at h
        injection h with h
        subst h
        rfl
  all_goals (injection h with h; subst h; rfl)

theorem stageOps_trace_add {σ : Type} (git : GitOracle σ) (oById : Str → Option FileOp) :
    ∀ ids (s : σ) r tr, stageOps git oById s ids = (r, tr) →
      ∀ e ∈ tr, e.call.args.head? = some "add".data := by
  intro ids
  induction ids with
  | nil =>
    intro s r tr h e he
    simp only [stageOps, Prod.mk.injEq] at h
    rw [← h.2] at he
    simp at he
  | cons i rest ih =>
    intro s r tr h e he
    simp only [stageOps] at h
    cases hop : oById i with
    | none =>
      rw [hop] at h
      simp only [Prod.mk.injEq] at h
      rw [← h.2] at he
      simp at he
    | some op =>
      rw [hop] at h
      simp only [] at h
      cases hsc : stageOpCall op with
      | error e' =>
        rw [hsc] at h
        simp only [Prod.mk.injEq] at h
        rw [← h.2] at he
        simp at he
      | ok call =>
        rw [hsc] at h
        simp only [] at h
        cases hgit : git s call with
        | none =>
          rw [hgit] at h
          simp only [Prod.mk.injEq] at h
          rw [← h.2] at he
          simp only [List.mem_singleton] at he
          subst he
          exact stageOpCall_head op call hsc
        | some pr =>
          obtain ⟨out, s'⟩ := pr
          rw [hgit] at h
          simp only [] at h
          rcases hrec : stageOps git oById s' rest with ⟨r', tr'⟩
          rw [hrec] at h
          simp only [Prod.mk.injEq] at h
          rw [← h.2] at he
          rcases List.mem_cons.mp he with he1 | he2
          · subst he1
            exact stageOpCall_head op call hsc
          · exact ih s' r' tr' hrec e he2

theorem applyPatchStep_trace {σ : Type} (git : GitOracle σ) (s : σ) (p : Str) :
    ∀ e ∈ (applyPatchStep git s p).2, e.call.args.head? = some "apply".data := by
  intro e he
  unfold applyPatchStep at he
  split at he
  · cases hgit : git s (applyCallOf p) with
    | none =>
      rw [hgit] at he
      simp only [List.mem_singleton] at he
      subst he
      rfl
    | some pr =>
      rw [hgit] at he
      simp only [List.mem_singleton] at he
      subst he
      rfl
  · simp at he

theorem stagePhase_trace_staging {σ : Type} (git : GitOracle σ) (s : σ) (c : PlanCommit)
    (hById : Str → Option Hunk) (oById : Str → Option FileOp) :
    ∀ e ∈ (stagePhase git s c hById oById).2,
      e.call.args.head? = some "apply".data ∨ e.call.args.head? = some "add".data := by
  intro e he
  unfold stagePhase at he
  cases hb : buildPatchText c hById with
  | error e' =>
    rw [hb] at he
    simp at he
  | ok patch =>
    rw [hb] at he
    simp only [] at he
    rcases hap : applyPatchStep git s patch with ⟨ra, tra⟩
    rw [hap] at he
    cases ra with
    | error e' =>
      simp only [] at he
      exact Or.inl (applyPatchStep_trace git s patch e (by rw [hap]; exact he))
    | ok s1 =>
      simp only [] at he
      rcases hso : stageOps git oById s1 c.ops with ⟨ro, tro⟩
      rw [hso] at he
      simp only [] at he
      rcases List.mem_append.mp he with h1 | h2
      · exact Or.inl (applyPatchStep_trace git s patch e (by rw [hap]; exact h1))
      · exact Or.inr (stageOps_trace_add git oById c.ops s1 ro tro hso e h2)

theorem stagePhase_no_commit {σ : Type} (git : GitOracle σ) (s : σ) (c : PlanCommit)
    (hById : Str → Option Hunk) (oById : Str → Option FileOp) :
    hasCommitCall (stagePhase git s c hById oById).2 = false := by
  rw [hasCommitCall, List.any_eq_false]
  intro e he
  rcases stagePhase_trace_staging git s c hById oById e he with h | h <;> rw [h] <;> decide

theorem stagePhase_no_reset {σ : Type} (git : GitOracle σ) (s : σ) (c : PlanCommit)
    (hById : Str → Option Hunk) (oById : Str → Option FileOp) :
    ∀ e ∈ (stagePhase git s c hById oById).2, isResetB e = false := by
  intro e he
  rcases stagePhase_trace_staging git s c hById oById e he with h | h <;>
  · rw [isResetB]
    by_cases hr : e.call = resetIndexCall
    · rw [hr] at h
      exact absurd h (by decide)
    · simp [hr]

theorem resetChainOK_of_placement (tr : List TraceEntry)
    (h : resetPlacementOK tr = true) (p : TraceEntry) : resetChainOK p tr = true := by
  cases tr with
  | nil => rfl
  | cons e rest =>
    simp only [resetPlacementOK, Bool.and_eq_true] at h
    simp only [resetChainOK, Bool.and_eq_true]
    exact ⟨by rw [h.1]; rfl, h.2⟩

theorem resetChainOK_append (l1 l2 : List TraceEntry) :
    ∀ p, resetChainOK p l1 = true → (∀ q, resetChainOK q l2 = true) →
      resetChainOK p (l1 ++ l2) = true := by
  induction l1 with
  | nil => intro p _ h2; exact h2 p
  | cons e l1' ih =>
    intro p h1 h2
    simp only [resetChainOK, Bool.and_eq_true, List.cons_append] at h1 ⊢
    exact ⟨h1.1, ih e h1.2 h2⟩

theorem resetPlacementOK_append (tr1 tr2 : List TraceEntry)
    (h1 : resetPlacementOK tr1 = true) (h2 : resetPlacementOK tr2 = true) :
    resetPlacementOK (tr1 ++ tr2) = true := by
  cases tr1 with
  | nil => simpa using h2
  | cons e rest =>
    simp only [resetPlacementOK, Bool.and_eq_true, List.cons_append] at h1 ⊢
    exact ⟨h1.1, resetChainOK_append rest tr2 e h1.2 (resetChainOK_of_placement tr2 h2)⟩

theorem resetChainOK_of_no_reset (l : List TraceEntry) :
    ∀ p, (∀ e ∈ l, isResetB e = false) → resetChainOK p l = true := by
  induction l with
  | nil => intro p _; rfl
  | cons e rest ih =>
    intro p h
    simp only [resetChainOK, Bool.and_eq_true]
    refine ⟨by rw [h e (List.mem_cons_self e rest)]; rfl, ?_⟩
    exact ih e (fun x hx => h x (List.mem_cons_of_mem e hx))

theorem resetPlacementOK_of_no_reset (tr : List TraceEntry)
    (h : ∀ e ∈ tr, isResetB e = false) : resetPlacementOK tr = true := by
  cases tr with
  | nil => rfl
  | cons e rest =>
    simp only [resetPlacementOK, Bool.and_eq_true]
    refine ⟨by rw [h e (List.mem_cons_self e rest)]; rfl, ?_⟩
    exact resetChainOK_of_no_reset rest e (fun x hx => h x (List.mem_cons_of_mem e hx))

theorem commitCall_head (c : PlanCommit) : (commitCallOf c).args.head? = some "commit".data := by
  simp [commitCallOf]

theorem commitCall_not_reset (c : PlanCommit) (b : Bool) :
    isResetB ⟨commitCallOf c, b⟩ = false := by
  rw [isResetB]
  by_cases hr : (⟨commitCallOf c, b⟩ : TraceEntry).call = resetIndexCall
  · have h1 := commitCall_head c
    simp only [] at hr
    rw [hr] at h1
    exact absurd h1 (by decide)
  · simp [hr]

theorem applyCommit_trace_placement {σ : Type} (git : GitOracle σ) (s : σ) (c : PlanCommit)
    (hById : Str → Option Hunk) (oById : Str → Option FileOp) :
    resetPlacementOK (applyCommit git s c hById oById).2 = true := by
  have hstage := stagePhase_no_reset git s c hById oById
  unfold applyCommit
  rcases hsp : stagePhase git s c hById oById with ⟨r', tr'⟩
  rw [hsp] at hstage
  simp only [] at hstage
  have htr' : resetPlacementOK tr' = true := resetPlacementOK_of_no_reset tr' hstage
  cases r' with
  | error e => simpa using htr'
  | ok s2 =>
    simp only []
    cases hgit : git s2 stagedReadCall with
    | none =>
      simp only []
      exact resetPlacementOK_append _ _ htr' (by decide)
    | some pr =>
      obtain ⟨out, s3⟩ := pr
      simp only []
      by_cases hout : jsTrim out = []
      · rw [if_pos hout]
        exact resetPlacementOK_append _ _ htr' (by decide)
      · rw [if_neg hout]
        cases hc : git s3 (commitCallOf c) with
        | none =>
          simp only []
          apply resetPlacementOK_append _ _ htr'
          simp only [resetPlacementOK, resetChainOK, Bool.and_eq_true]
          refine ⟨by decide, ?_, trivial⟩
          rw [commitCall_not_reset c false]
          rfl
        | some pr2 =>
          obtain ⟨out2, s4⟩ := pr2
          simp only []
          cases hr : git s4 resetIndexCall with
          | none =>
            simp only []
            apply resetPlacementOK_append _ _ htr'
            simp only [resetPlacementOK, resetChainOK, Bool.and_eq_true]
            refine ⟨by decide, ⟨?_, ?_, trivial⟩⟩
            · rw [commitCall_not_reset c true]; rfl
            · have := commitCall_head c
              simp [isCommitOkB, this]
          | some pr3 =>
            obtain ⟨out3, s5⟩ := pr3
            simp only []
            apply resetPlacementOK_append _ _ htr'
            simp only [resetPlacementOK, resetChainOK, Bool.and_eq_true]
            refine ⟨by decide, ⟨?_, ?_, trivial⟩⟩
            · rw [commitCall_not_reset c true]; rfl
            · have := commitCall_head c
              simp [isCommitOkB, this]

theorem applyPlanGo_trace_placement {σ : Type} (git : GitOracle σ)
    (hById : Str → Option Hunk) (oById : Str → Option FileOp) :
    ∀ cs (s : σ), resetPlacementOK (applyPlanGo git hById oById s cs).2 = true := by
  intro cs
  induction cs with
  | nil => intro s; rfl
  | cons c cs' ih =>
    intro s
    unfold applyPlanGo
    rcases hac : applyCommit git s c hById oById with ⟨rc, trc⟩
    have hpc : resetPlacementOK trc = true := by
      have h := applyCommit_trace_placement git s c hById oById
      rw [hac] at h
      exact h
    cases rc with
    | error e => simpa using hpc
    | ok s' =>
      simp only []
      rcases hgo : applyPlanGo git hById oById s' cs' with ⟨r2, tr2⟩
      simp only []
      apply resetPlacementOK_append _ _ hpc
      have h := ih s'
      rw [hgo] at h
      exact h

/-- **C10**: when applying a planned commit fails after some staging, the
error propagates and no index reset is issued after the failure point —
in every trace of `applyPlan`, a `reset` call appears only immediately
after a successful `commit` call, and an `applyCommit` error becomes the
result of `applyPlan` unchanged. -/
theorem applyPlan_reset_after_commit {σ : Type} (git : GitOracle σ) (s : σ)
    (plan : Plan) (hunks : List Hunk) (ops : List FileOp) :
    resetPlacementOK (applyPlan git s plan hunks ops).2 = true ∧
    (∀ c cs e, (applyCommit git s c (hunkLookup hunks) (opLookup ops)).1 = .error e →
       (applyPlanGo git (hunkLookup hunks) (opLookup ops) s (c :: cs)).1 = .error e) := by
  constructor
  · exact applyPlanGo_trace_placement git _ _ plan.commits s
  · intro c cs e h
    unfold applyPlanGo
    rcases hac : applyCommit git s c (hunkLookup hunks) (opLookup ops) with ⟨rc, trc⟩
    rw [hac] at h
    simp only [] at h
    cases rc with
    | error e' =>
      simp only [Except.error.injEq] at h
      subst h
      rfl
    | ok s' => exact absurd h (by simp)

/-- Witness for the C10 theorem: a concrete failing run whose trace
satisfies the reset-placement property and whose error propagates. -/
theorem applyPlan_reset_after_commit_witness :
    resetPlacementOK (applyPlan failApplyGit () (Plan.mk [cexCommitW]) [hunkW] []).2 = true ∧
    (applyPlanGo failApplyGit (hunkLookup [hunkW]) (opLookup []) () [cexCommitW]).1 =
      .error (.gitFailed ["apply".data, "--cached".data, "--3way".data,
        "--whitespace=nowarn".data, "-".data]) :=
  ⟨(applyPlan_reset_after_commit failApplyGit () (Plan.mk [cexCommitW]) [hunkW] []).1,
   (applyPlan_reset_after_commit failApplyGit () (Plan.mk [cexCommitW]) [hunkW] []).2
     cexCommitW []
     (.gitFailed ["apply".data, "--cached".data, "--3way".data,
       "--whitespace=nowarn".data, "-".data])
     (by decide)⟩

/-- Counterexample to C3 as stated: a commit whose referenced hunks fail
to apply (the oracle rejects the `git apply` call) and which references
no operations fails with the git-apply error, not with "nothing
staged". -/
theorem applyFail_not_nothingStaged :
    (applyCommit failApplyGit () cexCommitW (hunkLookup [hunkW]) (opLookup [])).1 =
      .error (.gitFailed ["apply".data, "--cached".data, "--3way".data,
        "--whitespace=nowarn".data, "-".data]) ∧
    (applyCommit failApplyGit () cexCommitW (hunkLookup [hunkW]) (opLookup [])).1 ≠
      .error (.nothingStaged cexCommitW.message) :=
  ⟨by decide, by decide⟩

/-- **C3** (amended): if staging succeeded and the staged-path read-back
is blank, the apply step fails with the `nothingStaged` error for that
commit and no `git commit` call is ever issued; if instead the composite
patch fails to apply, the step fails with the git-apply error (also
before any commit call). -/
theorem applyCommit_empty_index_guard {σ : Type} (git : GitOracle σ) (s : σ)
    (c : PlanCommit) (hById : Str → Option Hunk) (oById : Str → Option FileOp) :
    (∀ (s2 : σ) tr out s3,
       stagePhase git s c hById oById = (.ok s2, tr) →
       git s2 stagedReadCall = some (out, s3) →
       jsTrim out = [] →
       applyCommit git s c hById oById =
         (.error (.nothingStaged c.message), tr ++ [⟨stagedReadCall, true⟩]) ∧
       hasCommitCall (tr ++ [⟨stagedReadCall, true⟩]) = false) ∧
    (∀ patch,
       buildPatchText c hById = .ok patch →
       jsTrim patch ≠ [] →
       git s (applyCallOf patch) = none →
       applyCommit git s c hById oById =
         (.error (.gitFailed (applyCallOf patch).args), [⟨applyCallOf patch, false⟩])) := by
  constructor
  · intro s2 tr out s3 hsp hread hout
    constructor
    · unfold applyCommit
      rw [hsp]
      simp only []
      rw [hread]
      simp only []
      rw [if_pos hout]
    · have h1 : hasCommitCall tr = false := by
        have h := stagePhase_no_commit git s c hById oById
        rw [hsp] at h
        exact h
      rw [hasCommitCall, List.any_append]
      rw [hasCommitCall] at h1
      rw [h1]
      decide
  · intro patch hb hne hfail
    have hsp : stagePhase git s c hById oById =
        (.error (.gitFailed (applyCallOf patch).args), [⟨applyCallOf patch, false⟩]) := by
      unfold stagePhase
      rw [hb]
      simp only []
      unfold applyPatchStep
      rw [if_pos hne, hfail]
    unfold applyCommit
    rw [hsp]

/-- Witness for the amended C3 theorem: an oracle whose staged-path
read-back is empty makes the apply step fail with `nothingStaged` and no
commit call. -/
theorem applyCommit_empty_index_guard_witness :
    applyCommit emptyGitW () emptyCommitW (hunkLookup []) (opLookup []) =
      (.error (.nothingStaged "chore: x".data), [⟨stagedReadCall, true⟩]) ∧
    hasCommitCall [⟨stagedReadCall, true⟩] = false :=
  (applyCommit_empty_index_guard emptyGitW () emptyCommitW (hunkLookup []) (opLookup [])).1
    () [] [] () (by decide) rfl rfl

theorem clampNl_le_two (k : Nat) : clampNl k ≤ 2 := by
  unfold clampNl
  split <;> omega

theorem hasTripleNl_cons (c : Char) (hc : c ≠ '\n') (rest : Str) :
    hasTripleNl (c :: rest) = hasTripleNl rest := by
  cases rest with
  | nil => simp [hasTripleNl]
  | cons r rs =>
    cases rs with
    | nil => simp [hasTripleNl]
    | cons r2 rs2 => simp [hasTripleNl, hc]

theorem hasTripleNl_prepend_pad (c : Char) (hc : c ≠ '\n') (rest : Str)
    (m : Nat) (hm : m ≤ 2) :
    hasTripleNl (List.replicate m '\n' ++ c :: rest) = hasTripleNl (c :: rest) := by
  interval_cases m
  · simp
  · cases rest with
    | nil => simp [hasTripleNl]
    | cons r rs => simp [List.replicate, hasTripleNl, hc]
  · cases rest with
    | nil => simp [List.replicate, hasTripleNl, hc]
    | cons r rs => simp [List.replicate, hasTripleNl, hc]

theorem cnGo_triple_free (cs : Str) : ∀ k, hasTripleNl (cnGo k cs) = false := by
  induction cs with
  | nil =>
    intro k
    unfold cnGo
    rcases Nat.lt_or_ge k 3 with h | h
    · have : clampNl k = k := by unfold clampNl; rw [if_neg (by omega)]
      rw [this]
      interval_cases k <;> decide
    · have : clampNl k = 2 := by unfold clampNl; rw [if_pos h]
      rw [this]
      decide
  | cons c cs' ih =>
    intro k
    unfold cnGo
    by_cases hc : c = '\n'
    · rw [if_pos hc]
      exact ih (k + 1)
    · rw [if_neg hc]
      rw [hasTripleNl_prepend_pad c hc _ (clampNl k) (clampNl_le_two k)]
      rw [hasTripleNl_cons c hc]
      exact ih 0

theorem filter_replicate_nl (m : Nat) :
    (List.replicate m '\n').filter (fun ch => decide (ch ≠ '\n')) = [] := by
  induction m with
  | zero => rfl
  | succ n ih => simp [List.replicate_succ, ih]

theorem cnGo_filter (cs : Str) : ∀ k,
    (cnGo k cs).filter (fun ch => decide (ch ≠ '\n')) =
      cs.filter (fun ch => decide (ch ≠ '\n')) := by
  induction cs with
  | nil =>
    intro k
    unfold cnGo
    simp [filter_replicate_nl]
  | cons c cs' ih =>
    intro k
    unfold cnGo
    by_cases hc : c = '\n'
    · rw [if_pos hc, ih (k + 1), hc]
      simp
    · rw [if_neg hc]
      rw [List.filter_append, filter_replicate_nl, List.nil_append]
      have h1 : List.filter (fun ch => decide (ch ≠ '\n')) (c :: cnGo 0 cs') =
          c :: List.filter (fun ch => decide (ch ≠ '\n')) (cnGo 0 cs') := by
        rw [List.filter_cons]
        simp [hc]
      have h2 : List.filter (fun ch => decide (ch ≠ '\n')) (c :: cs') =
          c :: List.filter (fun ch => decide (ch ≠ '\n')) cs' := by
        rw [List.filter_cons]
        simp [hc]
      rw [h1, h2, ih 0]

/-- **C5**: the composite patch of a planned commit is the concatenation
of each referenced file's header and hunk-line blocks with blank-line
separation (`rawPatchText`), with every run of three or more newline
characters collapsed to exactly two: the built text is `collapseNl` of
that raw concatenation, contains no three consecutive newlines, and
agrees with the raw concatenation on every non-newline character. -/
theorem buildPatch_collapse_spec (c : PlanCommit) (hunkById : Str → Option Hunk) (s : Str)
    (h : buildPatchText c hunkById = .ok s) :
    (∃ raw, rawPatchText c hunkById = .ok raw ∧ s = collapseNl raw ∧
       s.filter (fun ch => decide (ch ≠ '\n')) =
         raw.filter (fun ch => decide (ch ≠ '\n'))) ∧
    hasTripleNl s = false := by
  unfold buildPatchText at h
  cases hraw : rawPatchText c hunkById with
  | error e => rw [hraw] at h; exact absurd h (by simp [Except.map])
  | ok raw =>
    rw [hraw] at h
    simp only [Except.map, Except.ok.injEq] at h
    subst h
    exact ⟨⟨raw, rfl, rfl, cnGo_filter raw 0⟩, cnGo_triple_free raw 0⟩

/-- Witness for the C5 theorem at a concrete one-hunk commit. -/
theorem buildPatch_collapse_spec_witness :
    buildPatchText cexCommitW (hunkLookup [hunkW]) = .ok patchTextW ∧
    ((∃ raw, rawPatchText cexCommitW (hunkLookup [hunkW]) = .ok raw ∧
        patchTextW = collapseNl raw ∧
        patchTextW.filter (fun ch => decide (ch ≠ '\n')) =
          raw.filter (fun ch => decide (ch ≠ '\n'))) ∧
     hasTripleNl patchTextW = false) :=
  ⟨by decide, buildPatch_collapse_spec cexCommitW (hunkLookup [hunkW]) patchTextW (by decide)⟩

theorem takeWhile_middle (p : Char → Bool) (t : Str) (x : Char) (r : Str)
    (ht : ∀ c ∈ t, p c = true) (hx : p x = false) :
    (t ++ x :: r).takeWhile p = t ∧ (t ++ x :: r).dropWhile p = x :: r := by
  induction t with
  | nil =>
    simp only [List.nil_append]
    exact ⟨by simp [List.takeWhile_cons, hx], by simp [List.dropWhile_cons, hx]⟩
  | cons a t' ih =>
    have ha : p a = true := ht a (List.mem_cons_self a t')
    have ih' := ih (fun c hc => ht c (List.mem_cons_of_mem a hc))
    constructor
    · simp only [List.cons_append, List.takeWhile_cons, ha, if_true]
      rw [ih'.1]
    · simp only [List.cons_append, List.dropWhile_cons, ha, if_true]
      exact ih'.2

/-- **C4**: the commit-message check accepts a message exactly when its
trimmed form matches `type[(scope)]: subject` — a non-empty lowercase
type, an optional non-empty parenthesised scope, a colon, one whitespace
separator character and a subject of 1–72 line characters, with no other
structural constraint; in particular `"Fix bug"` is rejected and
`"fix(core): handle null input"` is accepted. -/
theorem conventionalHeader_characterization :
    (∀ s : Str, isConventionalCommitHeader s = true ↔ SpecHeaderShape (jsTrim s)) ∧
    isConventionalCommitHeader "Fix bug".data = false ∧
    isConventionalCommitHeader "fix(core): handle null input".data = true := by
  refine ⟨?_, by decide, by decide⟩
  intro s
  rw [isConventionalCommitHeader]
  generalize jsTrim s = cs
  constructor
  · intro h
    rw [ccMatch] at h
    by_cases ht : cs.takeWhile isAsciiLower = []
    · rw [if_pos ht] at h; exact absurd h (by simp)
    · rw [if_neg ht] at h
      have hcs := List.takeWhile_append_dropWhile (p := isAsciiLower) (l := cs)
      have htl : ∀ c ∈ cs.takeWhile isAsciiLower, isAsciiLower c = true :=
        fun c hc => List.mem_takeWhile_imp hc
      rcases hr : cs.dropWhile isAsciiLower with _ | ⟨c1, r2⟩
      · rw [hr] at h; exact absurd h (by simp)
      · rw [hr] at h
        simp only [] at h
        by_cases hc1p : c1 = '('
        · rw [if_pos hc1p] at h
          rcases hr3 : r2.dropWhile (fun c => decide (c ≠ ')')) with _ | ⟨c3, r3⟩
          · rw [hr3] at h; exact absurd h (by simp)
          · rcases r3 with _ | ⟨c4, r4⟩
            · rw [hr3] at h; exact absurd h (by simp)
            · rcases r4 with _ | ⟨w, subj⟩
              · rw [hr3] at h; exact absurd h (by simp)
              · rw [hr3] at h
                simp only [] at h
                by_cases hcc : c3 = ')' ∧ c4 = ':'
                · rw [if_pos hcc] at h
                  simp only [Bool.and_eq_true, decide_eq_true_eq] at h
                  obtain ⟨⟨⟨⟨hinner, hw⟩, h1⟩, h72⟩, hdot⟩ := h
                  have hr2 := List.takeWhile_append_dropWhile
                    (p := fun c => decide (c ≠ ')')) (l := r2)
                  set I := r2.takeWhile (fun c => decide (c ≠ ')')) with hI
                  have hre : r2 = I ++ ')' :: ':' :: w :: subj := by
                    rw [← hr2, hr3, hcc.1, hcc.2]
                  refine ⟨cs.takeWhile isAsciiLower, '(' :: (I ++ [')']), w, subj,
                    ?_, ht, htl, ?_, hw, h1, h72, ?_⟩
                  · conv_lhs => rw [← hcs, hr, hc1p, hre]
                    simp [List.append_assoc]
                  · refine Or.inr ⟨I, hinner, ?_, rfl⟩
                    intro c hc
                    have hp := List.mem_takeWhile_imp (hI ▸ hc)
                    simpa using hp
                  · intro c hc
                    exact List.all_eq_true.mp hdot c hc
                · rw [if_neg hcc] at h; exact absurd h (by simp)
        · rw [if_neg hc1p] at h
          by_cases hc1c : c1 = ':'
          · rw [if_pos hc1c] at h
            rcases hr2 : r2 with _ | ⟨w, subj⟩
            · subst hr2; exact absurd h (by simp)
            · subst hr2
              simp only [Bool.and_eq_true, decide_eq_true_eq] at h
              obtain ⟨⟨⟨hw, h1⟩, h72⟩, hdot⟩ := h
              refine ⟨cs.takeWhile isAsciiLower, [], w, subj, ?_, ht, htl,
                Or.inl rfl, hw, h1, h72, ?_⟩
              · conv_lhs => rw [← hcs, hr, hc1c]
                simp
              · intro c hc
                exact List.all_eq_true.mp hdot c hc
          · rw [if_neg hc1c] at h; exact absurd h (by simp)
  · rintro ⟨t, sc, w, subj, hcs, ht, htl, hsc, hw, h1, h72, hdot⟩
    subst hcs
    rcases hsc with rfl | ⟨inner, hinner, hinnerc, rfl⟩
    · have hmid := takeWhile_middle isAsciiLower t ':' (w :: subj) htl (by decide)
      rw [ccMatch]
      rw [List.append_nil]
      rw [hmid.1, hmid.2, if_neg ht]
      simp only []
      rw [if_neg (by decide : ¬ (':' : Char) = '(')]
      simp only [if_true]
      simp only [Bool.and_eq_true, decide_eq_true_eq, List.all_eq_true]
      exact ⟨⟨⟨hw, h1⟩, h72⟩, hdot⟩
    · have e1 : (t ++ ('(' :: (inner ++ [')']))) ++ ':' :: w :: subj =
          t ++ '(' :: (inner ++ ')' :: ':' :: w :: subj) := by
        simp [List.append_assoc]
      rw [ccMatch, e1]
      have hmid := takeWhile_middle isAsciiLower t '('
        (inner ++ ')' :: ':' :: w :: subj) htl (by decide)
      rw [hmid.1, hmid.2, if_neg ht]
      simp only []
      simp only [if_true]
      have hmid2 := takeWhile_middle (fun c => decide (c ≠ ')')) inner ')'
        (':' :: w :: subj) (fun c hc => by simpa using hinnerc c hc) (by decide)
      rw [hmid2.2]
      simp only []
      rw [if_pos ⟨trivial, trivial⟩, hmid2.1]
      simp only [Bool.and_eq_true, decide_eq_true_eq, List.all_eq_true]
      exact ⟨⟨⟨⟨hinner, hw⟩, h1⟩, h72⟩, hdot⟩

/-- Witness for the C4 theorem: the accepted example satisfies the spec
shape. -/
theorem conventionalHeader_characterization_witness :
    SpecHeaderShape (jsTrim "fix(core): handle null input".data) :=
  (conventionalHeader_characterization.1 "fix(core): handle null input".data).mp (by decide)

theorem indexOfChar_none_iff (ch : Char) (l : Str) : indexOfChar ch l = none ↔ ch ∉ l := by
  induction l with
  | nil => simp [indexOfChar]
  | cons c cs ih =>
    simp only [indexOfChar]
    by_cases hc : c = ch
    · subst hc
      simp
    · rw [if_neg hc]
      simp only [Option.map_eq_none', ih, List.mem_cons]
      constructor
      · intro h hor
        rcases hor with h1 | h2
        · exact hc h1.symm
        · exact h h2
      · intro h hm
        exact h (Or.inr hm)

theorem indexOfChar_some_iff (ch : Char) (l : Str) : ∀ k, indexOfChar ch l = some k ↔
    ∃ pre rest, l = pre ++ ch :: rest ∧ pre.length = k ∧ ch ∉ pre := by
  induction l with
  | nil =>
    intro k
    constructor
    · intro h; exact absurd h (by simp [indexOfChar])
    · rintro ⟨pre, rest, hl, _, _⟩
      exact absurd hl.symm (by simp)
  | cons c cs ih =>
    intro k
    simp only [indexOfChar]
    by_cases hc : c = ch
    · subst hc
      rw [if_pos rfl]
      constructor
      · intro h
        simp only [Option.some.injEq] at h
        exact ⟨[], cs, rfl, h, by simp⟩
      · rintro ⟨pre, rest, hl, hlen, hmem⟩
        cases pre with
        | nil => simp at hlen; rw [hlen]
        | cons p ps =>
          simp only [List.cons_append, List.cons.injEq] at hl
          exact absurd (hl.1 ▸ List.mem_cons_self p ps) (hl.1 ▸ hmem)
    · rw [if_neg hc]
      constructor
      · intro h
        rw [Option.map_eq_some'] at h
        obtain ⟨k', hk', hEq⟩ := h
        obtain ⟨pre, rest, hl, hlen, hmem⟩ := (ih k').mp hk'
        refine ⟨c :: pre, rest, by rw [hl, List.cons_append], by simp [hlen, hEq], ?_⟩
        simp only [List.mem_cons]
        rintro (h1 | h2)
        · exact hc h1.symm
        · exact hmem h2
      · rintro ⟨pre, rest, hl, hlen, hmem⟩
        cases pre with
        | nil =>
          simp only [List.nil_append, List.cons.injEq] at hl
          exact absurd hl.1 hc
        | cons p ps =>
          simp only [List.cons_append, List.cons.injEq] at hl
          have hmem' : ch ∉ ps := fun h => hmem (List.mem_cons_of_mem p h)
          have := (ih (k - 1)).mpr ⟨ps, rest, hl.2, by simp at hlen; omega, hmem'⟩
          rw [this]
          simp only [Option.map_some', Option.some.injEq]
          simp at hlen
          omega

theorem first_split_unique (ch : Char) (p1 r1 : Str) :
    ∀ p2 r2, p1 ++ ch :: r1 = p2 ++ ch :: r2 → ch ∉ p1 → ch ∉ p2 →
      p1 = p2 ∧ r1 = r2 := by
  induction p1 with
  | nil =>
    intro p2 r2 h h1 h2
    cases p2 with
    | nil => simp only [List.nil_append, List.cons.injEq] at h; exact ⟨rfl, h.2⟩
    | cons q qs =>
      simp only [List.nil_append, List.cons_append, List.cons.injEq] at h
      exact absurd (h.1 ▸ List.mem_cons_self q qs) (h.1 ▸ h2)
  | cons p ps ih =>
    intro p2 r2 h h1 h2
    cases p2 with
    | nil =>
      simp only [List.cons_append, List.nil_append, List.cons.injEq] at h
      exact absurd (h.1.symm ▸ List.mem_cons_self p ps) (h.1.symm ▸ h1)
    | cons q qs =>
      simp only [List.cons_append, List.cons.injEq] at h
      have h1' : ch ∉ ps := fun hm => h1 (List.mem_cons_of_mem p hm)
      have h2' : ch ∉ qs := fun hm => h2 (List.mem_cons_of_mem q hm)
      obtain ⟨hp, hr⟩ := ih qs r2 h.2 h1' h2'
      exact ⟨by rw [h.1, hp], hr⟩

theorem runScan_cons (st : ScanSt) (c : Char) (l : Str) :
    runScan st (c :: l) = runScan (stepScan st c) l := rfl

theorem scanCond_shift (st : ScanSt) (c : Char) (cs' : Str)
    (h1' : 1 ≤ (stepScan st c).depth) (n : Nat) :
    ScanCond st (c :: cs') (n + 1) ↔ ScanCond (stepScan st c) cs' n := by
  unfold ScanCond
  constructor
  · rintro ⟨_, hlen, hdep, hmin⟩
    rw [List.take_succ_cons, runScan_cons] at hdep
    refine ⟨?_, by simpa using hlen, hdep, ?_⟩
    · by_contra hn
      push_neg at hn
      interval_cases n
      simp only [List.take_zero, runScan, List.foldl_nil] at hdep
      omega
    · intro m hm1 hmn
      have h := hmin (m + 1) (by omega) (by omega)
      rw [List.take_succ_cons, runScan_cons] at h
      exact h
  · rintro ⟨hn1, hlen, hdep, hmin⟩
    refine ⟨by omega, by simpa using Nat.succ_le_succ hlen, ?_, ?_⟩
    · rw [List.take_succ_cons, runScan_cons]
      exact hdep
    · intro m hm1 hmn
      rcases Nat.eq_or_lt_of_le hm1 with heq | hgt
    
      · rw [← heq]
        rw [List.take_succ_cons, List.take_zero, runScan_cons]
        simp only [runScan, List.foldl_nil]
        omega
      · obtain ⟨m', rfl⟩ : ∃ m', m = m' + 1 := ⟨m - 1, by omega⟩
        rw [List.take_succ_cons, runScan_cons]
        exact hmin m' (by omega) (by omega)

theorem scanBalanced_step_case (st st' : ScanSt) (c : Char) (cs' : Str)
    (hst' : stepScan st c = st') (h1' : 1 ≤ st'.depth)
    (hb : scanBalanced st.depth st.inStr st.esc (c :: cs') =
      (scanBalanced st'.depth st'.inStr st'.esc cs').map (· + 1))
    (ih : ∀ n, scanBalanced st'.depth st'.inStr st'.esc cs' = some n ↔ ScanCond st' cs' n) :
    ∀ n, scanBalanced st.depth st.inStr st.esc (c :: cs') = some n ↔ ScanCond st (c :: cs') n := by
  subst hst'
  intro n
  rw [hb]
  constructor
  · intro hsome
    rw [Option.map_eq_some'] at hsome
    obtain ⟨n', hn', hEq⟩ := hsome
    rw [← hEq]
    exact (scanCond_shift st c cs' h1' n').mpr ((ih n').mp hn')
  · intro hcond
    have hn1 : 1 ≤ n := hcond.1
    obtain ⟨n', rfl⟩ : ∃ n', n = n' + 1 := ⟨n - 1, by omega⟩
    rw [(ih n').mpr ((scanCond_shift st c cs' h1' n').mp hcond)]
    rfl

theorem scanBalanced_some_iff (cs : Str) : ∀ st : ScanSt, 1 ≤ st.depth →
    ∀ n, scanBalanced st.depth st.inStr st.esc cs = some n ↔ ScanCond st cs n := by
  induction cs with
  | nil =>
    intro st h1 n
    constructor
    · intro h
      exact absurd h (by simp [scanBalanced])
    · rintro ⟨hn1, hlen, _, _⟩
      simp only [List.length_nil] at hlen
      omega
  | cons c cs' ih =>
    intro st h1
    by_cases hi : st.inStr = true
    · by_cases he : st.esc = true
      · refine scanBalanced_step_case st ⟨st.depth, st.inStr, false⟩ c cs' ?_ h1 ?_
          (ih ⟨st.depth, st.inStr, false⟩ h1)
        · simp [stepScan, hi, he]
        · simp only [scanBalanced]
          rw [if_pos hi, if_pos he]
      · by_cases hbs : c = '\\'
        · refine scanBalanced_step_case st ⟨st.depth, st.inStr, true⟩ c cs' ?_ h1 ?_
            (ih ⟨st.depth, st.inStr, true⟩ h1)
          · simp [stepScan, hi, he, hbs]
          · simp only [scanBalanced]
            rw [if_pos hi, if_neg he, if_pos hbs]
        · by_cases hq : c = '"'
          · refine scanBalanced_step_case st ⟨st.depth, false, st.esc⟩ c cs' ?_ h1 ?_
              (ih ⟨st.depth, false, st.esc⟩ h1)
            · simp [stepScan, hi, he, hbs, hq]
            · simp only [scanBalanced]
              rw [if_pos hi, if_neg he, if_neg hbs, if_pos hq]
          · refine scanBalanced_step_case st st c cs' ?_ h1 ?_ (ih st h1)
            · simp [stepScan, hi, he, hbs, hq]
            · simp only [scanBalanced]
              rw [if_pos hi, if_neg he, if_neg hbs, if_neg hq]
    · by_cases hq : c = '"'
      · refine scanBalanced_step_case st ⟨st.depth, true, st.esc⟩ c cs' ?_ h1 ?_
          (ih ⟨st.depth, true, st.esc⟩ h1)
        · simp [stepScan, hi, hq]
        · simp only [scanBalanced]
          rw [if_neg hi, if_pos hq]
      · by_cases hob : c = '{'
        · have hplus : (1 : Int) ≤ st.depth + 1 := by omega
          refine scanBalanced_step_case st ⟨st.depth + 1, st.inStr, st.esc⟩ c cs' ?_ hplus ?_
            (ih ⟨st.depth + 1, st.inStr, st.esc⟩ hplus)
          · simp [stepScan, hi, hq, hob]
          · simp only [scanBalanced]
            rw [if_neg hi, if_neg hq, if_pos hob]
        · by_cases hcb : c = '}'
          · by_cases hd0 : st.depth - 1 = 0
            · intro n
              have hb : scanBalanced st.depth st.inStr st.esc (c :: cs') = some 1 := by
                simp only [scanBalanced]
                rw [if_neg hi, if_neg hq, if_neg hob, if_pos hcb, if_pos hd0]
              rw [hb]
              have hstep : stepScan st c = ⟨st.depth - 1, st.inStr, st.esc⟩ := by
                simp [stepScan, hi, hq, hob, hcb]
              constructor
              · intro h
                simp only [Option.some.injEq] at h
                rw [← h]
                refine ⟨le_refl 1, by simp, ?_, ?_⟩
                · rw [show (1 : Nat) = 0 + 1 from rfl, List.take_succ_cons, List.take_zero,
                    runScan_cons]
                  simp only [runScan, List.foldl_nil]
                  rw [hstep]
                  exact hd0
                · intro m hm1 hmn
                  omega
              · rintro ⟨hn1, hlen, hdep, hmin⟩
                have hn : n = 1 := by
                  by_contra hne
                  have h2 : 2 ≤ n := by omega
                  apply hmin 1 (le_refl 1) (by omega)
                  rw [show (1 : Nat) = 0 + 1 from rfl, List.take_succ_cons, List.take_zero,
                    runScan_cons]
                  simp only [runScan, List.foldl_nil]
                  rw [hstep]
                  exact hd0
                rw [hn]
            · have hd1 : (1 : Int) ≤ st.depth - 1 := by omega
              refine scanBalanced_step_case st ⟨st.depth - 1, st.inStr, st.esc⟩ c cs' ?_ hd1 ?_
                (ih ⟨st.depth - 1, st.inStr, st.esc⟩ hd1)
              · simp [stepScan, hi, hq, hob, hcb]
              · simp only [scanBalanced]
                rw [if_neg hi, if_neg hq, if_neg hob, if_pos hcb, if_neg hd0]
          · refine scanBalanced_step_case st st c cs' ?_ h1 ?_ (ih st h1)
            · simp [stepScan, hi, hq, hob, hcb]
            · simp only [scanBalanced]
              rw [if_neg hi, if_neg hq, if_neg hob, if_neg hcb]

theorem scanBalanced_start_iff (rest : Str) (n : Nat) :
    scanBalanced 0 false false ('{' :: rest) = some n ↔ BalancedEndAt ('{' :: rest) n := by
  have hst' : stepScan initScan '{' = ⟨1, false, false⟩ := by
    simp [stepScan, initScan]
  have hone : (1 : Int) ≤ (⟨1, false, false⟩ : ScanSt).depth := by norm_num
  have hb : scanBalanced initScan.depth initScan.inStr initScan.esc ('{' :: rest) =
      (scanBalanced (⟨1, false, false⟩ : ScanSt).depth (⟨1, false, false⟩ : ScanSt).inStr
        (⟨1, false, false⟩ : ScanSt).esc rest).map (· + 1) := by
    simp only [scanBalanced]
    rw [if_neg (by decide : ¬ initScan.inStr = true),
      if_neg (by decide : ¬ ('{' : Char) = '"')]
    simp only [if_true]
    norm_num [initScan]
  have h := scanBalanced_step_case initScan ⟨1, false, false⟩ '{' rest hst' hone hb
    (scanBalanced_some_iff rest ⟨1, false, false⟩ hone)
  exact h n

/-- **C8**: `extractJsonObjectBalanced` succeeds exactly on the first
balanced top-level `{...}` object beginning at the first `{` of the text
(string-aware brace counting, quotes and escapes respected), returning the
minimal balanced span trimmed; it fails exactly when no such balanced
object exists. -/
theorem extractJson_characterization (text : Str) :
    (∀ o, extractJsonObjectBalanced text = some o ↔ FirstBalancedResult text o) ∧
    (extractJsonObjectBalanced text = none ↔ ¬ ∃ o, FirstBalancedResult text o) := by
  cases hidx : indexOfChar '{' text with
  | none =>
    have hnb : ∀ o, ¬ FirstBalancedResult text o := by
      rintro o ⟨pre, rest, n, hT, hpre, hbal, ho⟩
      have hm : '{' ∈ text := by
        rw [hT]
        exact List.mem_append_right _ (List.mem_cons_self _ _)
      exact (indexOfChar_none_iff '{' text).mp hidx hm
    refine ⟨fun o => ⟨fun h => ?_, fun h => absurd h (hnb o)⟩,
      ⟨fun _ => fun hex => ?_, fun _ => ?_⟩⟩
    · unfold extractJsonObjectBalanced at h
      rw [hidx] at h
      exact absurd h (by simp)
    · obtain ⟨o, ho⟩ := hex
      exact hnb o ho
    · unfold extractJsonObjectBalanced
      rw [hidx]
  | some start =>
    obtain ⟨pre, rest, hT, hlen, hpre⟩ := (indexOfChar_some_iff '{' text start).mp hidx
    have hdrop : text.drop start = '{' :: rest := by
      rw [hT, ← hlen]
      exact List.drop_left pre ('{' :: rest)
    cases hscan : scanBalanced 0 false false ('{' :: rest) with
    | some n =>
      have hbal : BalancedEndAt ('{' :: rest) n := (scanBalanced_start_iff rest n).mp hscan
      have hext : extractJsonObjectBalanced text = some (jsTrim (('{' :: rest).take n)) := by
        unfold extractJsonObjectBalanced
        rw [hidx]
        simp only []
        rw [hdrop, hscan]
      constructor
      · intro o
        rw [hext]
        constructor
        · intro h
          simp only [Option.some.injEq] at h
          exact ⟨pre, rest, n, hT, hpre, hbal, h.symm⟩
        · rintro ⟨pre', rest', n', hT', hpre', hbal', ho'⟩
          obtain ⟨hpq, hrq⟩ :=
            first_split_unique '{' pre rest pre' rest' (by rw [← hT, ← hT']) hpre hpre'
          rw [← hrq] at hbal' ho'
          have hnn : n = n' := by
            obtain ⟨h1, h2, h3, h4⟩ := hbal
            obtain ⟨h1', h2', h3', h4'⟩ := hbal'
            rcases Nat.lt_trichotomy n n' with hlt | heq | hgt
            · exact absurd h3 (h4' n h1 hlt)
            · exact heq
            · exact absurd h3' (h4 n' h1' hgt)
          rw [ho', hnn]
      · constructor
        · intro h
          rw [hext] at h
          exact absurd h (by simp)
        · intro h
          exact absurd ⟨jsTrim (('{' :: rest).take n), pre, rest, n, hT, hpre, hbal, rfl⟩ h
    | none =>
      have hnone : extractJsonObjectBalanced text = none := by
        unfold extractJsonObjectBalanced
        rw [hidx]
        simp only []
        rw [hdrop, hscan]
      have hnb : ∀ o, ¬ FirstBalancedResult text o := by
        rintro o ⟨pre', rest', n', hT', hpre', hbal', ho'⟩
        obtain ⟨hpq, hrq⟩ :=
          first_split_unique '{' pre rest pre' rest' (by rw [← hT, ← hT']) hpre hpre'
        rw [← hrq] at hbal'
        have hs := (scanBalanced_start_iff rest n').mpr hbal'
        rw [hscan] at hs
        exact absurd hs (by simp)
      refine ⟨fun o => ⟨fun h => ?_, fun h => absurd h (hnb o)⟩,
        ⟨fun _ => fun hex => ?_, fun _ => hnone⟩⟩
      · rw [hnone] at h
        exact absurd h (by simp)
      · obtain ⟨o, ho⟩ := hex
        exact hnb o ho

/-- Witness for the C8 theorem: prose around the object and brace
characters inside a quoted string are handled. -/
theorem extractJson_characterization_witness :
    FirstBalancedResult "noise \x7b\"a\": \"\x7d\x7b\"\x7d tail".data
      "\x7b\"a\": \"\x7d\x7b\"\x7d".data :=
  ((extractJson_characterization "noise \x7b\"a\": \"\x7d\x7b\"\x7d tail".data).1
    "\x7b\"a\": \"\x7d\x7b\"\x7d".data).mp (by decide)
